import Mathlib

/-!
Shallow embedding of the brimcrypt encrypted container file (Go package
brimcrypt) and proofs about it.

Modelling conventions:
* Bytes are `Nat` (values intended < 256); byte strings are `List Nat`.
* Go `int64` fields are modelled as `Int`.  Go integer division truncates
  toward zero while Lean's `Int` division is Euclidean; every division in
  this code acts on nonnegative operands (enforced by hypotheses where a
  proof needs it), where the two conventions agree.
* The AES-256 block permutation and HMAC-SHA-256 are Go standard-library
  primitives external to this repository; they are abstracted as a
  parameter structure `Prims` carrying exactly the properties the code
  relies on (the 16-byte block permutation and its inverse, and a 32-byte
  MAC).  CBC chaining, the MAC-then-encrypt envelope, and all container
  logic are translated from the source.
* Randomness (`crypto/rand`) is modelled as a deterministic stream
  `rng : Nat → Nat` with a cursor; `rand.Read` never fails in the model.
* File I/O: the single backing file is `Option (List Nat)` (`none` =
  does not exist).  `ReadAt` yields the requested range or the `eof`
  error when the range is not fully available, matching how every call
  site treats a short read; `WriteAt` extends the file, zero-filling any
  gap, and never fails.  Consequently the I/O-failure poisoning paths of
  the source are represented as states with `unknownState = true` rather
  than as reachable transitions.
-/

/-- Error outcomes of the container operations, one constructor per
distinct failure the Go code can produce (several are `fmt.Errorf`
values in the source; `invalidSeek` covers both the bad-whence and the
negative-result seek errors, `fuelOut` marks divergence of the Go write
loop, which can only happen outside the reachable-state invariants). -/
inductive Err where
  | unusable
  | eof
  | keyError
  | misaligned
  | invalidSeek
  | notExist
  | exist
  | notCryptFile
  | badBlockSizeSmall
  | badBlockSizeAlign
  | fuelOut
  deriving DecidableEq, Repr

/-- Abstract cryptographic primitives used by the envelope: the AES-256
block permutation (`crypto/aes`, keyed 16-byte block encrypt/decrypt)
and HMAC-SHA-256 (`crypto/hmac` + `crypto/sha256`, 32-byte tag), with
the laws the library guarantees and the code relies on. -/
structure Prims where
  encB : List Nat → List Nat → List Nat
  decB : List Nat → List Nat → List Nat
  hmac : List Nat → List Nat → List Nat
  encB_len : ∀ k b, b.length = 16 → (encB k b).length = 16
  decB_encB : ∀ k b, b.length = 16 → decB k (encB k b) = b
  hmac_len : ∀ b k, (hmac b k).length = 32

/-- Bytewise XOR of two byte strings (length of the shorter). -/
def xorB (a b : List Nat) : List Nat := List.zipWith (fun x y => x ^^^ y) a b

/-- hmacSize constant from the source. -/
def hmacSize : Nat := 32

/-- aes.BlockSize. -/
def aesBlockSize : Nat := 16

/-- newHMAC from the source: HMAC-SHA-256 of `block` under `key`. -/
def newHMAC (P : Prims) (block key : List Nat) : List Nat := P.hmac block key

/-- validateHMAC from the source: recompute the MAC over `block` and
compare with `givenHMAC` (`hmac.Equal` is constant-time in Go; equality
of lists here). -/
def validateHMAC (P : Prims) (block givenHMAC key : List Nat) : Bool :=
  givenHMAC == newHMAC P block key

/-- CBC-mode encryption (`cipher.NewCBCEncrypter` + `CryptBlocks`),
one 16-byte block per step: each plaintext block is XORed with the
previous ciphertext block (initially the IV) and passed through the
block permutation.  The fuel argument (instantiated with the data
length, an upper bound on the number of steps) makes the recursion
structural so that terms reduce definitionally. -/
def cbcEncAux (P : Prims) (key : List Nat) : Nat → List Nat → List Nat → List Nat
  | 0, _, _ => []
  | fuel + 1, iv, data =>
    if data = [] then []
    else
      P.encB key (xorB iv (data.take 16)) ++
        cbcEncAux P key fuel (P.encB key (xorB iv (data.take 16))) (data.drop 16)

/-- CBC encryption of a whole buffer. -/
def cbcEnc (P : Prims) (key iv data : List Nat) : List Nat :=
  cbcEncAux P key data.length iv data

/-- CBC-mode decryption (`cipher.NewCBCDecrypter` + `CryptBlocks`),
fuelled like `cbcEncAux`. -/
def cbcDecAux (P : Prims) (key : List Nat) : Nat → List Nat → List Nat → List Nat
  | 0, _, _ => []
  | fuel + 1, iv, data =>
    if data = [] then []
    else
      xorB iv (P.decB key (data.take 16)) ++
        cbcDecAux P key fuel (data.take 16) (data.drop 16)

/-- CBC decryption of a whole buffer. -/
def cbcDec (P : Prims) (key iv data : List Nat) : List Nat :=
  cbcDecAux P key data.length iv data

/-- decrypt0 from the source: alignment check, MAC verification over
`block[32:]` against `block[:32]`, then CBC decryption of `block[48:]`
under the IV at `block[32:48]`.  The `KeyError` branch is reached
without ever invoking the cipher. -/
def decrypt0 (P : Prims) (block key : List Nat) : Except Err (List Nat) :=
  if block.length % aesBlockSize ≠ 0 then .error .misaligned
  else if ¬ validateHMAC P (block.drop hmacSize) (block.take hmacSize) key then
    .error .keyError
  else
    let iv := (block.drop hmacSize).take aesBlockSize
    let rest := block.drop (hmacSize + aesBlockSize)
    .ok (cbcDec P key iv rest)

/-- encrypt0 from the source: alignment check, then
`MAC(iv ‖ ct) ‖ iv ‖ ct`.  The source draws the IV from `crypto/rand`
inside the function; the model receives it as the `iv` argument. -/
def encrypt0 (P : Prims) (plainBlock key iv : List Nat) : Except Err (List Nat) :=
  if plainBlock.length % aesBlockSize ≠ 0 then .error .misaligned
  else
    let ct := cbcEnc P key iv plainBlock
    .ok (newHMAC P (iv ++ ct) key ++ iv ++ ct)

/-- Big-endian encoding of `n` into `w` bytes
(`binary.BigEndian.PutUint32/PutUint64`); wraps modulo `2^(8*w)` just
as the Go fixed-width store does. -/
def toBE (w n : Nat) : List Nat :=
  (List.range w).map (fun i => n / 256 ^ (w - 1 - i) % 256)

/-- Big-endian decoding (`binary.BigEndian.Uint32/Uint64`). -/
def beU (l : List Nat) : Nat := l.foldl (fun a b => a * 256 + b) 0

-- aes.BlockSize * 2
def header0ASize : Nat := 32

-- int64 size field width
def header0BSize : Nat := 8

-- header0ASize + hmacSize + aes.BlockSize (iv) + header0BSize, aligned
def minBlockSize : Int := 128

/-- One step of the candidate scan in blockSizeForSize.  The Go code
compares `float64` waste ratios; every ratio has the same positive
denominator `size`, so the model tracks exact numerators over that
common denominator and performs the comparisons exactly
(`bestWaste < 0` ↔ numerator < 0, `bestWaste - waste > 0.01` ↔
`100*(bestNum - wasteNum) > size`).  The float64 roundings of the
source are below these margins for all inputs the claims touch. -/
def bsfsGo (size : Int) : Nat → Int → Int → Int → Int
  | 0, _, best, _ => best
  | fuel + 1, candidate, best, bestWasteNum =>
    if candidate ≥ minBlockSize then
      if bestWasteNum < 0 ∨ 100 * (bestWasteNum -
          (((size + (candidate - (hmacSize : Int) - (aesBlockSize : Int)) - 1)
              / (candidate - (hmacSize : Int) - (aesBlockSize : Int)) + 1)
            * candidate - size)) > size then
        bsfsGo size fuel (candidate / 2) candidate
          (((size + (candidate - (hmacSize : Int) - (aesBlockSize : Int)) - 1)
              / (candidate - (hmacSize : Int) - (aesBlockSize : Int)) + 1)
            * candidate - size)
      else
        bsfsGo size fuel (candidate / 2) best bestWasteNum
    else best

/-- blockSizeForSize from the source: minimum for small estimates,
otherwise scan candidate powers of two from 65536 down to the minimum,
keeping the lowest-waste candidate with a 1% hysteresis margin.  The
candidate sequence 65536, 32768, …, 128 has 10 elements; fuel 20 is
ample. -/
def blockSizeForSize (size : Int) : Int :=
  if size ≤ minBlockSize then minBlockSize
  else bsfsGo size 20 65536 65536 (-1)

/-- Mutable state of a CryptFile handle plus the modelled environment
(backing file and entropy stream).  Field names follow the source;
`unknownState` is the poison flag, `fileOpen` models `cf.file != nil`,
`disk` is the backing file's byte content (`none` = does not exist). -/
structure CFState where
  key : List Nat
  fallbackBlockSize : Int
  unknownState : Bool
  fileOpen : Bool
  blockSize : Int
  size : Int
  headerDirty : Bool
  plainBlockSize : Int
  plainBlock : Option (List Nat)
  plainBlockIndex : Int
  plainBlockDirty : Bool
  index : Int
  disk : Option (List Nat)
  rng : Nat → Nat
  rngPos : Nat

/-- NewCryptFile: records path/key, computes the fallback block size
from the estimate; no I/O.  `disk` is the (absent) backing file and
`rng` the entropy stream of the run. -/
def newCryptFile (key : List Nat) (estimatedSize : Int) (rng : Nat → Nat) : CFState :=
  { key := key
    fallbackBlockSize := blockSizeForSize estimatedSize
    unknownState := false
    fileOpen := false
    blockSize := 0
    size := 0
    headerDirty := false
    plainBlockSize := 0
    plainBlock := none
    plainBlockIndex := 0
    plainBlockDirty := false
    index := 0
    disk := none
    rng := rng
    rngPos := 0 }

/-- Draw `n` bytes from the entropy stream (`rand.Read`). -/
def draw (s : CFState) (n : Nat) : List Nat × CFState :=
  ((List.range n).map (fun i => s.rng (s.rngPos + i) % 256),
   { s with rngPos := s.rngPos + n })

/-- ReadAt: the full requested range, or `eof` when it is not entirely
within the file — matching how every call site collapses Go's
`(n, err)` pair (`err != nil && (err != io.EOF || n != len)`). -/
def readAt (d : List Nat) (off len : Nat) : Except Err (List Nat) :=
  if off + len ≤ d.length then .ok ((d.drop off).take len) else .error .eof

/-- WriteAt: splice `bytes` into the file at `off`, zero-filling any
gap beyond the current end (sparse-file semantics of `os.File`). -/
def writeAt (d : List Nat) (off : Nat) (bytes : List Nat) : List Nat :=
  d.take off ++ List.replicate (off - d.length) 0 ++ bytes
    ++ d.drop (off + bytes.length)

/-- ASCII bytes of the magic marker "CRYPTFILE0 ". -/
def magic : List Nat := [67, 82, 89, 80, 84, 70, 73, 76, 69, 48, 32]

/-- cf.open from the source: refuse when poisoned, no-op when a file is
held, open the backing file (absent → `notExist`), read and validate
Header-A (magic, block-size range and alignment), decode Header-B via
decrypt0, then populate `blockSize`, `plainBlockSize`, `size` and clear
`headerDirty`.  Every failure leaves the handle state unchanged (the Go
code closes the local file and returns). -/
def cfOpen (P : Prims) (s : CFState) : CFState × Option Err :=
  if s.unknownState then (s, some .unusable)
  else if s.fileOpen then (s, none)
  else match s.disk with
    | none => (s, some .notExist)
    | some d =>
      match readAt d 0 header0ASize with
      | .error e => (s, some e)
      | .ok header =>
        if header.take 11 ≠ magic then (s, some .notCryptFile)
        else if (beU ((header.drop 16).take 4) : Int) < minBlockSize then
          (s, some .badBlockSizeSmall)
        else if (beU ((header.drop 16).take 4) : Int) % (aesBlockSize : Int) ≠ 0 then
          (s, some .badBlockSizeAlign)
        else
          match readAt d header0ASize
              ((beU ((header.drop 16).take 4) : Int).toNat - header0ASize) with
          | .error e => (s, some e)
          | .ok enc =>
            match decrypt0 P enc s.key with
            | .error e => (s, some e)
            | .ok dec =>
              ({ s with fileOpen := true
                        blockSize := (beU ((header.drop 16).take 4) : Int)
                        plainBlockSize := (beU ((header.drop 16).take 4) : Int)
                          - (hmacSize : Int) - (aesBlockSize : Int)
                        size := (beU (dec.take 8) : Int)
                        headerDirty := false }, none)

/-- cf.create from the source: reset transient fields, fix the block
size from the fallback (or the minimum), create the backing file
exclusively; a creation failure (here: the file already exists)
poisons the handle. -/
def cfCreate (s : CFState) : CFState × Option Err :=
  let bs := if s.fallbackBlockSize = 0 then minBlockSize else s.fallbackBlockSize
  let s' := { s with unknownState := false
                     blockSize := bs
                     size := 0
                     headerDirty := true
                     plainBlockSize := bs - (hmacSize : Int) - (aesBlockSize : Int)
                     plainBlock := none
                     plainBlockIndex := 0
                     plainBlockDirty := false
                     index := 0 }
  match s.disk with
  | some _ => ({ s' with unknownState := true }, some .exist)
  | none => ({ s' with disk := some [], fileOpen := true }, none)

/-- cf.read (internal) from the source: load and decode the block
containing the current index into the cache.  A short read is `eof`
(the non-EOF poisoning branch corresponds to I/O faults the disk model
does not produce). -/
def cfReadBlock (P : Prims) (s : CFState) : CFState × Option Err :=
  if s.unknownState ∨ s.plainBlockSize = 0 then (s, some .unusable)
  else
    match readAt (s.disk.getD [])
        (s.blockSize + (s.index / s.plainBlockSize) * s.blockSize).toNat
        s.blockSize.toNat with
    | .error e => (s, some e)
    | .ok enc =>
      match decrypt0 P enc s.key with
      | .error e => (s, some e)
      | .ok dec =>
        ({ s with plainBlock := some dec, plainBlockDirty := false }, none)

/-- cf.write (internal flush) from the source: encrypt the cached
block (drawing a fresh IV) and store it at its slot; an encryption
failure (misaligned cache, impossible in reachable states) poisons the
handle and releases the file. -/
def cfFlush (P : Prims) (s : CFState) : CFState × Option Err :=
  if s.unknownState then (s, some .unusable)
  else
    let (iv, s) := draw s aesBlockSize
    match encrypt0 P (s.plainBlock.getD []) s.key iv with
    | .error e => ({ s with unknownState := true, fileOpen := false }, some e)
    | .ok enc =>
      ({ s with
          disk := some (writeAt (s.disk.getD [])
            (s.blockSize + (s.index / s.plainBlockSize) * s.blockSize).toNat enc)
          plainBlockDirty := false }, none)

/-- cf.writeHeader from the source: write Header-A (magic plus the
big-endian 32-bit block size at bytes 16–19 of a 32-byte record), then
encode Header-B — an 8-byte big-endian logical size followed by
`plainBlockSize − 40` random padding bytes — and write it at offset 32.
No-op when no file is held. -/
def cfWriteHeader (P : Prims) (s : CFState) : CFState × Option Err :=
  if s.unknownState then (s, some .unusable)
  else if ¬ s.fileOpen then (s, none)
  else
    let headerA := magic ++ List.replicate 5 0 ++ toBE 4 s.blockSize.toNat
      ++ List.replicate 12 0
    let d1 := writeAt (s.disk.getD []) 0 headerA
    let s := { s with disk := some d1 }
    let (pad, s) := draw s ((s.plainBlockSize - (header0ASize : Int)).toNat - header0BSize)
    let dec := toBE 8 s.size.toNat ++ pad
    let (iv, s) := draw s aesBlockSize
    match encrypt0 P dec s.key iv with
    | .error e => ({ s with unknownState := true, fileOpen := false }, some e)
    | .ok enc =>
      let d2 := writeAt (s.disk.getD []) header0ASize enc
      ({ s with disk := some d2 }, none)

/-- Size from the source: fail when poisoned, lazily open, return the
logical size. -/
def cfSize (P : Prims) (s : CFState) : CFState × Int × Option Err :=
  if s.unknownState then (s, 0, some .unusable)
  else
    let step : CFState × Option Err := if ¬ s.fileOpen then cfOpen P s else (s, none)
    match step with
    | (s, some e) => (s, 0, some e)
    | (s, none) => (s, s.size, none)

/-- Read from the source, after the lazy open and cache load have
succeeded: copy from the cached block at the block-relative cursor
into a caller buffer of length `bufLen`, advance the cursor, flush and
evict a finished block, advance `index`, clamp the count so `index`
never passes `size`, and signal `eof` when nothing remained.  Returns
(state, bytes copied into the buffer, reported count, error); the
caller-visible data is the first `count` copied bytes. -/
def cfReadCore (P : Prims) (s : CFState) (bufLen : Nat) :
    CFState × List Nat × Int × Option Err :=
  let pb := s.plainBlock.getD []
  let copied := (pb.drop s.plainBlockIndex.toNat).take bufLen
  let n : Int := (copied.length : Int)
  let s := { s with plainBlockIndex := s.plainBlockIndex + n }
  let step : CFState × Option Err :=
    if s.plainBlockIndex ≥ s.plainBlockSize then
      if s.plainBlockDirty then
        match cfFlush P s with
        | (s, some e) => (s, some e)
        | (s, none) => ({ s with plainBlock := none, plainBlockIndex := 0 }, none)
      else ({ s with plainBlock := none, plainBlockIndex := 0 }, none)
    else (s, none)
  match step with
  | (s, some e) => (s, copied, n, some e)
  | (s, none) =>
    let s := { s with index := s.index + n }
    let (s, n) :=
      if s.index > s.size then
        ({ s with index := s.size }, n - (s.index - s.size))
      else (s, n)
    if n ≤ 0 then (s, copied, n, some .eof) else (s, copied, n, none)

/-- Read from the source: poison check, lazy open, lazy cache load,
then the copy/advance/clamp core. -/
def cfRead (P : Prims) (s : CFState) (bufLen : Nat) :
    CFState × List Nat × Int × Option Err :=
  if s.unknownState then (s, [], 0, some .unusable)
  else
    let step : CFState × Option Err := if ¬ s.fileOpen then cfOpen P s else (s, none)
    match step with
    | (s, some e) => (s, [], 0, some e)
    | (s, none) =>
      let step2 : CFState × Option Err :=
        if s.plainBlock.isNone then cfReadBlock P s else (s, none)
      match step2 with
      | (s, some e) => (s, [], 0, some e)
      | (s, none) => cfReadCore P s bufLen

/-- One pass of the Write loop body plus its recursion, on explicit
fuel.  The source loop runs while input remains: load the current
block (or synthesize a random one at end of file), splice input into
it, flush and evict when the block fills, advance `index`, set
`size := index`, mark the header dirty.  Every error return of the
source reports count 0 regardless of loop progress.  `fuelOut` marks
the (unreachable under the cache invariants) case where the Go loop
would spin forever without consuming input; it reports the
accumulated count so that theorems about error counts do not depend on
an artefact of the fuel encoding. -/
def cfWriteLoop (P : Prims) : Nat → CFState → List Nat → Int →
    CFState × Int × Option Err
  | _, s, [], n => (s, n, none)
  | 0, s, _, n => (s, n, some .fuelOut)
  | fuel + 1, s, b, n =>
    let step : CFState × Option Err :=
      if s.plainBlock.isNone then
        match cfReadBlock P s with
        | (s, some e) =>
          if e = .eof then
            let (fresh, s) := draw s s.plainBlockSize.toNat
            ({ s with plainBlock := some fresh, plainBlockIndex := 0,
                      plainBlockDirty := false }, none)
          else (s, some e)
        | (s, none) => (s, none)
      else (s, none)
    match step with
    | (s, some e) => (s, 0, some e)
    | (s, none) =>
      let pb := s.plainBlock.getD []
      let n2 : Nat := min (pb.length - s.plainBlockIndex.toNat) b.length
      let pb' := pb.take s.plainBlockIndex.toNat ++ b.take n2
        ++ pb.drop (s.plainBlockIndex.toNat + n2)
      let s := { s with plainBlock := some pb' }
      if hn2 : n2 > 0 then
        let s := { s with plainBlockDirty := true,
                          plainBlockIndex := s.plainBlockIndex + (n2 : Int) }
        let step2 : CFState × Option Err :=
          if s.plainBlockIndex ≥ s.plainBlockSize then
            match cfFlush P s with
            | (s, some e) => (s, some e)
            | (s, none) =>
              ({ s with plainBlock := none, plainBlockIndex := 0,
                        plainBlockDirty := false }, none)
          else (s, none)
        match step2 with
        | (s, some e) => (s, 0, some e)
        | (s, none) =>
          let s := { s with index := s.index + (n2 : Int) }
          let s := { s with size := s.index, headerDirty := true }
          cfWriteLoop P fuel s (b.drop n2) (n + (n2 : Int))
      else
        cfWriteLoop P fuel s (b.drop n2) (n + (n2 : Int))

/-- Write from the source: poison check, lazy open (falling back to
creation exactly when the open failed with does-not-exist), then the
copy loop.  Fuel `b.length + 1` covers every terminating run of the Go
loop (each productive iteration consumes at least one input byte). -/
def cfWrite (P : Prims) (s : CFState) (b : List Nat) :
    CFState × Int × Option Err :=
  if s.unknownState then (s, 0, some .unusable)
  else
    let step : CFState × Option Err :=
      if ¬ s.fileOpen then
        match cfOpen P s with
        | (s, some e) =>
          if e = .notExist then cfCreate s else (s, some e)
        | (s, none) => (s, none)
      else (s, none)
    match step with
    | (s, some e) => (s, 0, some e)
    | (s, none) => cfWriteLoop P (b.length + 1) s b 0

/-- WriteAsEmpty from the source: write one byte, then reset `index`
and `size` to 0 and mark the header dirty. -/
def cfWriteAsEmpty (P : Prims) (s : CFState) : CFState × Option Err :=
  match cfWrite P s [0] with
  | (s, _, some e) => (s, some e)
  | (s, _, none) =>
    ({ s with index := 0, size := 0, headerDirty := true }, none)

/-- Seek from the source: poison check, lazy open, compute the target
from the whence mode (0 absolute, 1 relative, 2 from end; anything
else is an invalid-seek error), reject negative targets, flush and
evict the cache when the target lies in a different block, then set
`index` and the block-relative cursor — with no clamping to `size`. -/
def cfSeek (P : Prims) (s : CFState) (offset : Int) (whence : Int) :
    CFState × Int × Option Err :=
  if s.unknownState then (s, 0, some .unusable)
  else
    let step : CFState × Option Err := if ¬ s.fileOpen then cfOpen P s else (s, none)
    match step with
    | (s, some e) => (s, 0, some e)
    | (s, none) =>
      let newIndex? : Option Int :=
        if whence = 0 then some offset
        else if whence = 1 then some (s.index + offset)
        else if whence = 2 then some (s.size + offset)
        else none
      match newIndex? with
      | none => (s, s.index, some .invalidSeek)
      | some newIndex =>
        if newIndex < 0 then (s, s.index, some .invalidSeek)
        else
          let step2 : CFState × Option Err :=
            if newIndex / s.plainBlockSize ≠ s.index / s.plainBlockSize then
              if s.plainBlockDirty then
                match cfFlush P s with
                | (s, some e) => (s, some e)
                | (s, none) => ({ s with plainBlock := none }, none)
              else ({ s with plainBlock := none }, none)
            else (s, none)
          match step2 with
          | (s, some e) => (s, s.index, some e)
          | (s, none) =>
            ({ s with index := newIndex,
                      plainBlockIndex := newIndex % s.plainBlockSize },
             newIndex, none)

/-- Close from the source: when not poisoned, flush a dirty cache and
then a dirty header (an error from either is returned at once); then
release the file if held and reset every transient field — including
the poison flag — leaving the handle as freshly constructed. -/
def cfClose (P : Prims) (s : CFState) : CFState × Option Err :=
  let step : CFState × Option Err :=
    if ¬ s.unknownState then
      if s.plainBlockDirty then
        match cfFlush P s with
        | (s, some e) => (s, some e)
        | (s, none) =>
          if s.headerDirty then cfWriteHeader P s else (s, none)
      else if s.headerDirty then cfWriteHeader P s else (s, none)
    else (s, none)
  match step with
  | (s, some e) => (s, some e)
  | (s, none) =>
    ({ s with fileOpen := false
              unknownState := false
              blockSize := 0
              size := 0
              headerDirty := false
              plainBlockSize := 0
              plainBlock := none
              plainBlockIndex := 0
              plainBlockDirty := false
              index := 0 }, none)

/-- Drive Read until end-of-stream, collecting the caller-visible
bytes (the first `count` of each successful call); succeeds exactly
when a call reports `eof`. -/
def readFull (P : Prims) : Nat → CFState → Nat → List Nat →
    CFState × List Nat × Option Err
  | 0, s, _, acc => (s, acc, some .fuelOut)
  | fuel + 1, s, bufLen, acc =>
    match cfRead P s bufLen with
    | (s, copied, n, none) => readFull P fuel s bufLen (acc ++ copied.take n.toNat)
    | (s, _, _, some .eof) => (s, acc, none)
    | (s, _, _, some e) => (s, acc, some e)

/-- A concrete primitives instance (identity cipher, length-and-sum
tag) used to instantiate witnesses; the laws of `Prims` hold
trivially. -/
def idPrims : Prims where
  encB := fun _ b => b
  decB := fun _ b => b
  hmac := fun b k => List.replicate 32 ((b.length + b.sum + k.sum) % 256)
  encB_len := fun _ _ h => h
  decB_encB := fun _ _ _ => rfl
  hmac_len := fun _ _ => List.length_replicate _ _

/-- A concrete poisoned handle used by the C2 counterexample and
witness. -/
def poisonState : CFState :=
  { key := List.replicate 32 7
    fallbackBlockSize := 128
    unknownState := true
    fileOpen := false
    blockSize := 128
    size := 10
    headerDirty := true
    plainBlockSize := 80
    plainBlock := none
    plainBlockIndex := 0
    plainBlockDirty := true
    index := 3
    disk := some (List.replicate 256 1)
    rng := fun _ => 0
    rngPos := 0 }

/-- A concrete open handle used by seek/read witnesses: 128-byte
blocks, logical size 100, cursor at 10, clean cache. -/
def seekState : CFState :=
  { key := List.replicate 32 7
    fallbackBlockSize := 128
    unknownState := false
    fileOpen := true
    blockSize := 128
    size := 100
    headerDirty := false
    plainBlockSize := 80
    plainBlock := none
    plainBlockIndex := 10
    plainBlockDirty := false
    index := 10
    disk := some (List.replicate 384 0)
    rng := fun _ => 0
    rngPos := 0 }

/-- A concrete open handle with a cached clean block, cursor 10 of
logical size 100. -/
def readState1 : CFState :=
  { key := List.replicate 32 7
    fallbackBlockSize := 128
    unknownState := false
    fileOpen := true
    blockSize := 128
    size := 100
    headerDirty := false
    plainBlockSize := 80
    plainBlock := some (List.replicate 80 3)
    plainBlockIndex := 10
    plainBlockDirty := false
    index := 10
    disk := some (List.replicate 384 0)
    rng := fun _ => 0
    rngPos := 0 }

/-- The same handle with the cursor already at the logical size. -/
def readState2 : CFState :=
  { readState1 with index := 100, size := 100, plainBlockIndex := 20 }

/-- A concrete open handle mid-write: the cached block is dirty and
one byte short of full, and the next block's on-disk bytes do not
authenticate, so a multi-byte write flushes the first block (making
progress) and then fails loading the second. -/
def write10State : CFState :=
  { key := List.replicate 32 7
    fallbackBlockSize := 128
    unknownState := false
    fileOpen := true
    blockSize := 128
    size := 79
    headerDirty := true
    plainBlockSize := 80
    plainBlock := some (List.replicate 80 4)
    plainBlockIndex := 79
    plainBlockDirty := true
    index := 79
    disk := some (List.replicate 384 9)
    rng := fun i => (i * 37 + 11) % 251
    rngPos := 0 }

/-- A concrete open handle about to persist its header: 128-byte
blocks, logical size 5. -/
def headerState : CFState :=
  { key := List.replicate 32 7
    fallbackBlockSize := 128
    unknownState := false
    fileOpen := true
    blockSize := 128
    size := 5
    headerDirty := true
    plainBlockSize := 80
    plainBlock := none
    plainBlockIndex := 0
    plainBlockDirty := false
    index := 0
    disk := some (List.replicate 256 0)
    rng := fun i => (i * 37 + 11) % 251
    rngPos := 0 }

/-- Handle state at the head of the fresh-file write loop: file open,
clean empty cache, cursor and logical size equal (at `idx`), header
dirty since creation. -/
def loopState (key : List Nat) (fb B : Int) (D : List Nat) (rng : Nat → Nat)
    (r : Nat) (idx : Int) : CFState :=
  { key := key
    fallbackBlockSize := fb
    unknownState := false
    fileOpen := true
    blockSize := B
    size := idx
    headerDirty := true
    plainBlockSize := B - 48
    plainBlock := none
    plainBlockIndex := 0
    plainBlockDirty := false
    index := idx
    disk := some D
    rng := rng
    rngPos := r }

/-- Like `loopState` but with a dirty cached block `cache` filled up
to `ci`. -/
def loopStateC (key : List Nat) (fb B : Int) (D : List Nat) (rng : Nat → Nat)
    (r : Nat) (idx : Int) (cache : List Nat) (ci : Int) : CFState :=
  { key := key
    fallbackBlockSize := fb
    unknownState := false
    fileOpen := true
    blockSize := B
    size := idx
    headerDirty := true
    plainBlockSize := B - 48
    plainBlock := some cache
    plainBlockIndex := ci
    plainBlockDirty := true
    index := idx
    disk := some D
    rng := rng
    rngPos := r }

/-- Data block `i` of container file `D` holds an envelope decoding to
`content`. -/
def BlockOK (P : Prims) (key : List Nat) (B : Int) (D : List Nat) (i : Nat)
    (content : List Nat) : Prop :=
  ∃ enc, readAt D (B.toNat + i * B.toNat) B.toNat = .ok enc ∧
    decrypt0 P enc key = .ok content

/-- Handle state after Close: every transient field reset, only the
identity (key, fallback block size), the disk image and the entropy
cursor survive. -/
def closedState (key : List Nat) (fb : Int) (D : List Nat) (rng : Nat → Nat)
    (r : Nat) : CFState :=
  { key := key
    fallbackBlockSize := fb
    unknownState := false
    fileOpen := false
    blockSize := 0
    size := 0
    headerDirty := false
    plainBlockSize := 0
    plainBlock := none
    plainBlockIndex := 0
    plainBlockDirty := false
    index := 0
    disk := some D
    rng := rng
    rngPos := r }

/-- Handle state after opening an existing container: block geometry
and logical size loaded from the header, clean cache, cursor at
`idx`. -/
def rdState (key : List Nat) (fb B : Int) (D : List Nat) (rng : Nat → Nat)
    (r : Nat) (sz idx : Int) : CFState :=
  { key := key
    fallbackBlockSize := fb
    unknownState := false
    fileOpen := true
    blockSize := B
    size := sz
    headerDirty := false
    plainBlockSize := B - 48
    plainBlock := none
    plainBlockIndex := 0
    plainBlockDirty := false
    index := idx
    disk := some D
    rng := rng
    rngPos := r }

/-- `rdState` with a loaded clean cache. -/
def rdStateC (key : List Nat) (fb B : Int) (D : List Nat) (rng : Nat → Nat)
    (r : Nat) (sz idx : Int) (cache : List Nat) : CFState :=
  { rdState key fb B D rng r sz idx with plainBlock := some cache }

/-- C7: the block size chooser is a pure function; estimates at or
below the 128-byte minimum yield 128, and
`choose_block_size 0 = choose_block_size 128 = 128`,
`choose_block_size 161 = 256`, `choose_block_size 24567890 = 65536`. -/
theorem blockSizeForSize_spec :
    (∀ size : Int, size ≤ minBlockSize → blockSizeForSize size = 128) ∧
    blockSizeForSize 0 = 128 ∧ blockSizeForSize 128 = 128 ∧
    blockSizeForSize 161 = 256 ∧ blockSizeForSize 24567890 = 65536 := by
  refine ⟨fun size h => ?_, by decide, by decide, by decide, by decide⟩
  unfold blockSizeForSize
  rw [if_pos h]
  decide

/-- Witness for C7 at the concrete estimate 100. -/
theorem blockSizeForSize_spec_witness :
    (100 : Int) ≤ minBlockSize ∧ blockSizeForSize 100 = 128 :=
  ⟨by decide, blockSizeForSize_spec.1 100 (by decide)⟩

/-- C4: on an aligned block whose leading 32 bytes differ from the MAC
recomputed over the remainder, decrypt0 fails with the
authentication error and no plaintext; the result is the same for
every cipher sharing that MAC, so decryption is never attempted. -/
theorem decrypt0_auth_fail :
    ∀ (P Q : Prims) (block key : List Nat),
      block.length % aesBlockSize = 0 →
      Q.hmac = P.hmac →
      P.hmac (block.drop hmacSize) key ≠ block.take hmacSize →
      decrypt0 Q block key = .error .keyError := by
  intro P Q block key halign hq hne
  unfold decrypt0 validateHMAC newHMAC
  rw [hq]
  simp only [halign]
  have : ¬ (block.take hmacSize == P.hmac (block.drop hmacSize) key) = true := by
    simpa [beq_iff_eq] using fun h => hne h.symm
  simp [this]

/-- Witness for C4: a concrete 48-byte all-ones block whose stored tag
cannot match the recomputed one under `idPrims`. -/
theorem decrypt0_auth_fail_witness :
    (List.replicate 48 1).length % aesBlockSize = 0 ∧
    idPrims.hmac ((List.replicate 48 1).drop hmacSize) []
      ≠ (List.replicate 48 1).take hmacSize ∧
    decrypt0 idPrims (List.replicate 48 1) [] = .error .keyError :=
  ⟨by decide, by decide,
   decrypt0_auth_fail idPrims idPrims (List.replicate 48 1) [] (by decide)
     rfl (by decide)⟩

/-- XOR with the same left operand twice restores the input. -/
theorem xorB_xorB (a b : List Nat) (h : a.length = b.length) :
    xorB a (xorB a b) = b := by
  induction a generalizing b with
  | nil => cases b with
    | nil => rfl
    | cons x xs => simp at h
  | cons x xs ih =>
    cases b with
    | nil => simp at h
    | cons y ys =>
      have h' : xs.length = ys.length := by simpa using h
      simp only [xorB, List.zipWith_cons_cons]
      exact congrArg₂ List.cons (Nat.xor_cancel_left x y) (ih ys h')

/-- Length of the bytewise XOR. -/
theorem xorB_length (a b : List Nat) : (xorB a b).length = min a.length b.length := by
  simp [xorB]

/-- CBC encryption preserves the length of 16-aligned input when the
IV is one cipher block. -/
theorem cbcEncAux_length (P : Prims) (key : List Nat) :
    ∀ fuel (data iv : List Nat), data.length ≤ fuel → iv.length = 16 →
      data.length % 16 = 0 →
      (cbcEncAux P key fuel iv data).length = data.length := by
  intro fuel
  induction fuel with
  | zero =>
    intro data iv hb _ _
    have : data = [] := List.eq_nil_of_length_eq_zero (by omega)
    subst this; simp [cbcEncAux]
  | succ n ih =>
    intro data iv hb hiv hal
    by_cases hd : data = []
    · subst hd; simp [cbcEncAux]
    · rw [cbcEncAux, if_neg hd]
      have hne : data.length ≠ 0 := fun hl => hd (List.eq_nil_of_length_eq_zero hl)
      have hlen : 16 ≤ data.length := by omega
      have htake : (data.take 16).length = 16 := by
        simp [List.length_take]; omega
      have hx : (xorB iv (data.take 16)).length = 16 := by
        rw [xorB_length, htake, hiv]; exact Nat.min_self 16
      have hc : (P.encB key (xorB iv (data.take 16))).length = 16 :=
        P.encB_len _ _ hx
      have hdl : (data.drop 16).length = data.length - 16 := by simp
      have hrec := ih (data.drop 16) (P.encB key (xorB iv (data.take 16)))
        (by omega) hc (by omega)
      simp only [List.length_append, hc, hrec, hdl]
      omega

/-- Length form of the CBC-encryption lemma. -/
theorem cbcEnc_length (P : Prims) (key data iv : List Nat)
    (hiv : iv.length = 16) (hal : data.length % 16 = 0) :
    (cbcEnc P key iv data).length = data.length :=
  cbcEncAux_length P key data.length data iv le_rfl hiv hal

theorem cbcDecAux_cbcEncAux (P : Prims) (key : List Nat) :
    ∀ fuel (data iv : List Nat), data.length ≤ fuel → iv.length = 16 →
      data.length % 16 = 0 →
      cbcDecAux P key fuel iv (cbcEncAux P key fuel iv data) = data := by
  intro fuel
  induction fuel with
  | zero =>
    intro data iv hb _ _
    have : data = [] := List.eq_nil_of_length_eq_zero (by omega)
    subst this; simp [cbcEncAux, cbcDecAux]
  | succ n ih =>
    intro data iv hb hiv hal
    by_cases hd : data = []
    · subst hd; simp [cbcEncAux, cbcDecAux]
    · rw [cbcEncAux, if_neg hd]
      have hne0 : data.length ≠ 0 := fun hl => hd (List.eq_nil_of_length_eq_zero hl)
      have hlen : 16 ≤ data.length := by omega
      have htake : (data.take 16).length = 16 := by
        simp [List.length_take]; omega
      have hx : (xorB iv (data.take 16)).length = 16 := by
        rw [xorB_length, htake, hiv]; exact Nat.min_self 16
      set c := P.encB key (xorB iv (data.take 16)) with hcdef
      have hc : c.length = 16 := P.encB_len _ _ hx
      have hne : c ++ cbcEncAux P key n c (data.drop 16) ≠ [] := by
        intro habs
        have := congrArg List.length habs
        simp [hc] at this
      rw [cbcDecAux, if_neg hne]
      have htl : (c ++ cbcEncAux P key n c (data.drop 16)).take 16 = c :=
        List.take_left' hc
      have hdl : (c ++ cbcEncAux P key n c (data.drop 16)).drop 16 =
          cbcEncAux P key n c (data.drop 16) := List.drop_left' hc
      rw [htl, hdl, hcdef]
      rw [P.decB_encB key _ hx]
      have hxx : xorB iv (xorB iv (data.take 16)) = data.take 16 :=
        xorB_xorB iv (data.take 16) (by rw [hiv, htake])
      rw [hxx]
      have hrec := ih (data.drop 16) c (by simp; omega) hc (by simp; omega)
      rw [← hcdef, hrec]
      exact List.take_append_drop 16 data

/-- Direct form of the CBC round-trip lemma. -/
theorem cbcDec_cbcEnc (P : Prims) (key data iv : List Nat)
    (hiv : iv.length = 16) (hal : data.length % 16 = 0) :
    cbcDec P key iv (cbcEnc P key iv data) = data := by
  unfold cbcDec cbcEnc
  rw [cbcEncAux_length P key data.length data iv le_rfl hiv hal]
  exact cbcDecAux_cbcEncAux P key data.length data iv le_rfl hiv hal

/-- Decoding a well-formed envelope `mac ++ iv ++ ct` whose tag
verifies yields the CBC decryption of `ct`. -/
theorem decrypt0_parse (P : Prims) (mac iv ct key : List Nat)
    (hmacl : mac.length = 32) (hiv : iv.length = 16)
    (hctal : ct.length % 16 = 0)
    (hok : validateHMAC P (iv ++ ct) mac key = true) :
    decrypt0 P (mac ++ iv ++ ct) key = .ok (cbcDec P key iv ct) := by
  have hdrop : (mac ++ iv ++ ct).drop hmacSize = iv ++ ct := by
    rw [List.append_assoc]
    exact List.drop_left' hmacl
  have htake : (mac ++ iv ++ ct).take hmacSize = mac := by
    rw [List.append_assoc]
    exact List.take_left' hmacl
  have hlen : (mac ++ iv ++ ct).length % aesBlockSize = 0 := by
    simp only [List.length_append, hmacl, hiv, aesBlockSize]
    omega
  have h48 : (mac ++ iv).length = hmacSize + aesBlockSize := by
    simp [hmacl, hiv, hmacSize, aesBlockSize]
  unfold decrypt0
  rw [if_neg (not_not_intro hlen)]
  rw [hdrop, htake]
  rw [if_neg (not_not_intro (by simpa using hok))]
  rw [show List.take aesBlockSize (iv ++ ct) = iv from
    List.take_left' (show iv.length = aesBlockSize from hiv)]
  rw [show (mac ++ iv ++ ct).drop (hmacSize + aesBlockSize) = ct from
    List.drop_left' h48]

/-- encrypt0 on aligned input succeeds and returns the envelope
`mac ++ iv ++ ct`. -/
theorem encrypt0_ok (P : Prims) (plain key iv : List Nat)
    (hal : plain.length % 16 = 0) :
    encrypt0 P plain key iv =
      .ok (newHMAC P (iv ++ cbcEnc P key iv plain) key ++ iv
        ++ cbcEnc P key iv plain) := by
  unfold encrypt0
  rw [if_neg (by simp [aesBlockSize, hal])]

/-- Decoding the encoding of aligned plaintext under the same key
recovers the plaintext. -/
theorem decrypt0_encrypt0 (P : Prims) (plain key iv enc : List Nat)
    (hal : plain.length % 16 = 0) (hiv : iv.length = 16)
    (henc : encrypt0 P plain key iv = .ok enc) :
    decrypt0 P enc key = .ok plain := by
  rw [encrypt0_ok P plain key iv hal] at henc
  injection henc with henc
  subst henc
  have hct : (cbcEnc P key iv plain).length % 16 = 0 := by
    rw [cbcEnc_length P key plain iv hiv hal]
    exact hal
  exact (decrypt0_parse P (newHMAC P (iv ++ cbcEnc P key iv plain) key) iv
    (cbcEnc P key iv plain) key (P.hmac_len _ _) hiv hct
    (by simp [validateHMAC])).trans
    (by rw [cbcDec_cbcEnc P key plain iv hiv hal])

/-- Length of a successful encrypt0 envelope: MAC (32) + IV (16) +
ciphertext (same as plaintext). -/
theorem encrypt0_ok_length (P : Prims) (plain key iv enc : List Nat)
    (hal : plain.length % 16 = 0) (hiv : iv.length = 16)
    (henc : encrypt0 P plain key iv = .ok enc) :
    enc.length = 48 + plain.length := by
  rw [encrypt0_ok P plain key iv hal] at henc
  injection henc with henc
  subst henc
  simp only [List.length_append, newHMAC, P.hmac_len, hiv,
    cbcEnc_length P key plain iv hiv hal]

/-- C5: decoding the encoding of any 16-aligned plaintext under the
same 32-byte key returns the plaintext exactly. -/
theorem encrypt0_decrypt0_roundtrip :
    ∀ (P : Prims) (plain key iv : List Nat),
      key.length = 32 → plain.length % aesBlockSize = 0 → iv.length = 16 →
      (encrypt0 P plain key iv).bind (fun enc => decrypt0 P enc key) =
        .ok plain := by
  intro P plain key iv hkey hal hiv
  have hal' : plain.length % 16 = 0 := by simpa [aesBlockSize] using hal
  rw [encrypt0_ok P plain key iv hal']
  simp only [Except.bind]
  exact decrypt0_encrypt0 P plain key iv _ hal' hiv (encrypt0_ok P plain key iv hal')

/-- Witness for C5 at a concrete 16-byte plaintext, 32-byte key and
concrete IV under `idPrims`. -/
theorem encrypt0_decrypt0_roundtrip_witness :
    (List.replicate 32 7 : List Nat).length = 32 ∧
    (List.range 16).length % aesBlockSize = 0 ∧
    (List.replicate 16 5 : List Nat).length = 16 ∧
    (encrypt0 idPrims (List.range 16) (List.replicate 32 7)
        (List.replicate 16 5)).bind
      (fun enc => decrypt0 idPrims enc (List.replicate 32 7)) =
      .ok (List.range 16) :=
  ⟨by decide, by decide, by decide,
   encrypt0_decrypt0_roundtrip idPrims (List.range 16) (List.replicate 32 7)
     (List.replicate 16 5) (by decide) (by decide) (by decide)⟩

/-- C2 counterexample: on a poisoned handle, Close does NOT fail with
the unusable-handle error — it succeeds (returning no error) and even
clears the poison flag, so the poisoned state is not absorbing for
close. -/
theorem close_on_poisoned_succeeds :
    (cfClose idPrims poisonState).2 = none ∧
    (cfClose idPrims poisonState).1.unknownState = false := by
  constructor <;> rfl

/-- C2 (amended): on a poisoned handle, read, write, seek and size all
fail with the unusable-handle error, touching neither the handle state
nor the backing file; close, however, succeeds without performing any
flush I/O (the backing file is unchanged), releases the handle, and
resets the poison flag. -/
theorem poisoned_ops_fail :
    ∀ (P : Prims) (s : CFState) (bufLen : Nat) (b : List Nat) (off w : Int),
      s.unknownState = true →
      cfRead P s bufLen = (s, [], 0, some .unusable) ∧
      cfWrite P s b = (s, 0, some .unusable) ∧
      cfSeek P s off w = (s, 0, some .unusable) ∧
      cfSize P s = (s, 0, some .unusable) ∧
      (cfClose P s).2 = none ∧
      (cfClose P s).1.disk = s.disk ∧
      (cfClose P s).1.unknownState = false ∧
      (cfClose P s).1.fileOpen = false := by
  intro P s bufLen b off w h
  refine ⟨?_, ?_, ?_, ?_, ?_, ?_, ?_, ?_⟩
  · simp [cfRead, h]
  · simp [cfWrite, h]
  · simp [cfSeek, h]
  · simp [cfSize, h]
  · simp [cfClose, h]
  · simp [cfClose, h]
  · simp [cfClose, h]
  · simp [cfClose, h]

/-- Witness for C2 (amended) at the concrete poisoned handle. -/
theorem poisoned_ops_fail_witness :
    poisonState.unknownState = true ∧
    cfRead idPrims poisonState 5 = (poisonState, [], 0, some .unusable) ∧
    cfWrite idPrims poisonState [1, 2] = (poisonState, 0, some .unusable) ∧
    cfSeek idPrims poisonState 4 0 = (poisonState, 0, some .unusable) ∧
    cfSize idPrims poisonState = (poisonState, 0, some .unusable) ∧
    (cfClose idPrims poisonState).1.disk = poisonState.disk :=
  have h := poisoned_ops_fail idPrims poisonState 5 [1, 2] 4 0 rfl
  ⟨rfl, h.1, h.2.1, h.2.2.1, h.2.2.2.1, h.2.2.2.2.2.1⟩

/-- C9: on an open, clean handle, a seek with an unrecognized origin
or a negative computed target fails with the invalid-seek error and
leaves the position (and the whole state) unchanged; otherwise it
stores and returns the computed position — absolute, relative, or
from-end — without clamping it to the logical size, so positions past
the logical end are accepted. -/
theorem cfSeek_spec :
    ∀ (P : Prims) (s : CFState) (off w : Int),
      s.unknownState = false → s.fileOpen = true → s.plainBlockDirty = false →
      (¬ (w = 0 ∨ w = 1 ∨ w = 2) →
        cfSeek P s off w = (s, s.index, some .invalidSeek)) ∧
      (∀ target,
        ((w = 0 ∧ target = off) ∨ (w = 1 ∧ target = s.index + off) ∨
          (w = 2 ∧ target = s.size + off)) →
        (target < 0 → cfSeek P s off w = (s, s.index, some .invalidSeek)) ∧
        (0 ≤ target →
          (cfSeek P s off w).2.1 = target ∧
          (cfSeek P s off w).2.2 = none ∧
          (cfSeek P s off w).1.index = target ∧
          (cfSeek P s off w).1.size = s.size ∧
          (cfSeek P s off w).1.disk = s.disk)) := by
  intro P s off w hun hop hdirty
  constructor
  · intro hw
    have h0 : w ≠ 0 := fun h => hw (Or.inl h)
    have h1 : w ≠ 1 := fun h => hw (Or.inr (Or.inl h))
    have h2 : w ≠ 2 := fun h => hw (Or.inr (Or.inr h))
    simp [cfSeek, hun, hop, h0, h1, h2]
  · rintro target (⟨hw, ht⟩ | ⟨hw, ht⟩ | ⟨hw, ht⟩) <;> subst hw <;> subst ht <;>
      constructor <;> intro hsign
    · simp [cfSeek, hun, hop, hsign]
    · simp only [cfSeek, hun, hop, hdirty, Bool.false_eq_true, if_false,
        not_true, not_false_iff, if_true, reduceIte, if_neg (not_lt.mpr hsign)]
      split <;> rename_i heq <;> split at heq <;> (try cases heq) <;> simp_all
    · simp [cfSeek, hun, hop, hsign]
    · simp only [cfSeek, hun, hop, hdirty, Bool.false_eq_true, if_false,
        not_true, not_false_iff, if_true, reduceIte,
        if_neg (by omega : ¬ (1 : Int) = 0), if_neg (not_lt.mpr hsign)]
      split <;> rename_i heq <;> split at heq <;> (try cases heq) <;> simp_all
    · simp [cfSeek, hun, hop, hsign]
    · simp only [cfSeek, hun, hop, hdirty, Bool.false_eq_true, if_false,
        not_true, not_false_iff, if_true, reduceIte,
        if_neg (by omega : ¬ (2 : Int) = 0), if_neg (by omega : ¬ (2 : Int) = 1),
        if_neg (not_lt.mpr hsign)]
      split <;> rename_i heq <;> split at heq <;> (try cases heq) <;> simp_all

/-- Witness for C9: bad whence 7 and a negative absolute target fail
leaving the cursor at 10; seeking 50 past the logical end (from-end
origin) succeeds and stores 150 without clamping. -/
theorem cfSeek_spec_witness :
    seekState.unknownState = false ∧
    cfSeek idPrims seekState 5 7 = (seekState, 10, some .invalidSeek) ∧
    cfSeek idPrims seekState (-20) 0 = (seekState, 10, some .invalidSeek) ∧
    (cfSeek idPrims seekState 50 2).2.1 = 150 ∧
    (cfSeek idPrims seekState 50 2).2.2 = none ∧
    (cfSeek idPrims seekState 50 2).1.index = 150 := by
  refine ⟨rfl, ?_, ?_, ?_, ?_, ?_⟩
  · exact (cfSeek_spec idPrims seekState 5 7 rfl rfl rfl).1 (by decide)
  · exact ((cfSeek_spec idPrims seekState (-20) 0 rfl rfl rfl).2 (-20)
      (Or.inl ⟨rfl, rfl⟩)).1 (by decide)
  · exact (((cfSeek_spec idPrims seekState 50 2 rfl rfl rfl).2 150
      (Or.inr (Or.inr ⟨rfl, by decide⟩))).2 (by decide)).1
  · exact (((cfSeek_spec idPrims seekState 50 2 rfl rfl rfl).2 150
      (Or.inr (Or.inr ⟨rfl, by decide⟩))).2 (by decide)).2.1
  · exact (((cfSeek_spec idPrims seekState 50 2 rfl rfl rfl).2 150
      (Or.inr (Or.inr ⟨rfl, by decide⟩))).2 (by decide)).2.2.1

set_option maxRecDepth 4000 in
/-- A successful lazy open leaves every cursor/cache field untouched,
holds the file, and is only reachable off the poisoned state. -/
theorem cfOpen_ok_fields (P : Prims) (s s' : CFState)
    (h : cfOpen P s = (s', none)) :
    s'.key = s.key ∧ s'.disk = s.disk ∧ s'.index = s.index ∧
    s'.plainBlock = s.plainBlock ∧ s'.plainBlockIndex = s.plainBlockIndex ∧
    s'.plainBlockDirty = s.plainBlockDirty ∧ s'.fileOpen = true ∧
    s'.unknownState = false ∧ s'.rng = s.rng ∧ s'.rngPos = s.rngPos := by
  unfold cfOpen at h
  by_cases hu : (s.unknownState : Prop)
  · rw [if_pos hu] at h
    simp at h
  · rw [if_neg hu] at h
    by_cases hf : (s.fileOpen : Prop)
    · rw [if_pos hf] at h
      injection h with h1 _
      subst h1
      exact ⟨rfl, rfl, rfl, rfl, rfl, rfl, hf, by simpa using hu, rfl, rfl⟩
    · rw [if_neg hf] at h
      repeat' split at h
      all_goals try (exfalso; exact Option.noConfusion (congrArg Prod.snd h))
      all_goals injection h with h1 h2
      all_goals subst h1
      all_goals exact ⟨rfl, rfl, rfl, rfl, rfl, rfl, rfl,
        by simpa using hu, rfl, rfl⟩

/-- A successful internal block load only installs the decoded cache
block and clears the dirty bit. -/
theorem cfReadBlock_ok_fields (P : Prims) (s s' : CFState)
    (h : cfReadBlock P s = (s', none)) :
    ∃ dec, s' = { s with plainBlock := some dec, plainBlockDirty := false } := by
  unfold cfReadBlock at h
  by_cases h0 : ((s.unknownState : Prop) ∨ s.plainBlockSize = 0)
  · rw [if_pos h0] at h
    simp at h
  · rw [if_neg h0] at h
    repeat' split at h
    all_goals try (exfalso; exact Option.noConfusion (congrArg Prod.snd h))
    all_goals injection h with h1 h2
    all_goals exact ⟨_, h1.symm⟩

set_option maxRecDepth 4000 in
/-- A successful internal flush only rewrites the backing file, clears
the dirty bit and consumes the 16 IV bytes of entropy. -/
theorem cfFlush_ok_fields (P : Prims) (s s' : CFState)
    (h : cfFlush P s = (s', none)) :
    ∃ d', s' =
      { s with disk := some d', plainBlockDirty := false,
               rngPos := s.rngPos + 16 } := by
  unfold cfFlush draw at h
  by_cases hu : (s.unknownState : Prop)
  · rw [if_pos hu] at h
    simp at h
  · rw [if_neg hu] at h
    repeat' split at h
    all_goals try (exfalso; exact Option.noConfusion (congrArg Prod.snd h))
    rename_i pr iv0 s0 hdraw ex0 enc0 henc
    injection hdraw with hiv hs
    subst hs
    subst hiv
    injection h with h1 h2
    exact ⟨_, h1.symm⟩

set_option maxRecDepth 8000 in
/-- A read that reports no error delivered a positive count, advanced
the cursor by exactly that count, and left the cursor within the
logical size. -/
theorem cfReadCore_none (P : Prims) (s : CFState) (bufLen : Nat)
    (s' : CFState) (out : List Nat) (n : Int)
    (h : cfReadCore P s bufLen = (s', out, n, none)) :
    0 < n ∧ s'.index = s.index + n ∧ s'.index ≤ s'.size ∧ s'.size = s.size := by
  simp only [cfReadCore] at h
  split at h
  · simp at h
  · rename_i s2 heq
    have hfacts : s2.index = s.index ∧ s2.size = s.size := by
      split at heq
      · split at heq
        · split at heq
          · exact absurd (congrArg Prod.snd heq) (by simp)
          · rename_i s3 hfl
            obtain ⟨d', hrec⟩ := cfFlush_ok_fields P _ s3 hfl
            injection heq with h1 h2
            subst h1
            subst hrec
            exact ⟨rfl, rfl⟩
        · injection heq with h1 h2
          subst h1
          exact ⟨rfl, rfl⟩
      · injection heq with h1 h2
        subst h1
        exact ⟨rfl, rfl⟩
    obtain ⟨hi2, hz2⟩ := hfacts
    split at h
    · rename_i hclamp
      split at h
      · simp at h
      · rename_i hpos
        injection h with hs' h
        injection h with hout h
        injection h with hn h
        subst hs'
        subst hn
        simp only [not_le] at hpos
        refine ⟨hpos, ?_, ?_, ?_⟩ <;> simp only [] <;> omega
    · rename_i hclamp
      split at h
      · simp at h
      · rename_i hpos
        injection h with hs' h
        injection h with hout h
        injection h with hn h
        subst hs'
        subst hn
        simp only [not_le] at hpos
        simp only [not_lt] at hclamp
        refine ⟨hpos, ?_, ?_, ?_⟩ <;> simp only [] <;> omega

set_option maxRecDepth 8000 in
/-- With a clean cache, a read that has nothing left to deliver
(count at most 0) reports end-of-stream. -/
theorem cfReadCore_eof (P : Prims) (s : CFState) (bufLen : Nat)
    (hdirty : s.plainBlockDirty = false)
    (s' : CFState) (out : List Nat) (n : Int) (e : Option Err)
    (h : cfReadCore P s bufLen = (s', out, n, e)) (hn : n ≤ 0) :
    e = some .eof := by
  simp only [cfReadCore] at h
  split at h
  · rename_i s2 e2 heq
    exfalso
    split at heq
    · rw [hdirty] at heq
      simp at heq
    · simp at heq
  · rename_i s2 heq
    split at h
    · split at h
      · injection h with hs' h
        injection h with hout h
        injection h with hn' h
        exact h.symm
      · rename_i hpos
        injection h with hs' h
        injection h with hout h
        injection h with hn' h
        subst hn'
        omega
    · split at h
      · injection h with hs' h
        injection h with hout h
        injection h with hn' h
        exact h.symm
      · rename_i hpos
        injection h with hs' h
        injection h with hout h
        injection h with hn' h
        subst hn'
        omega

/-- C6: a successful read delivers a positive count `n` covering
exactly the stream offsets from the pre-read cursor up to cursor + n,
lands the cursor at or below the logical size (never returning data at
offsets past it, whatever trailing bytes the physical block holds),
and a read with nothing left to deliver on a clean ready handle
signals end-of-stream. -/
theorem cfRead_spec :
    (∀ (P : Prims) (s : CFState) (bufLen : Nat) (s' : CFState)
      (out : List Nat) (n : Int),
      0 ≤ s.index →
      cfRead P s bufLen = (s', out, n, none) →
      0 < n ∧ s'.index = s.index + n ∧ 0 ≤ s'.index ∧ s'.index ≤ s'.size) ∧
    (∀ (P : Prims) (s : CFState) (bufLen : Nat) (s' : CFState)
      (out : List Nat) (n : Int) (e : Option Err),
      s.unknownState = false → s.fileOpen = true →
      s.plainBlock.isSome = true → s.plainBlockDirty = false →
      cfRead P s bufLen = (s', out, n, e) → n ≤ 0 →
      e = some .eof) := by
  constructor
  · intro P s bufLen s' out n hidx h
    simp only [cfRead] at h
    split at h
    · simp at h
    · split at h
      · simp at h
      · rename_i s1 heq
        split at h
        · simp at h
        · rename_i s2 heq2
          have h1i : s1.index = s.index := by
            split at heq
            · exact (cfOpen_ok_fields P s s1 heq).2.2.1
            · injection heq with e1 _
              rw [← e1]
          have h2i : s2.index = s1.index := by
            split at heq2
            · obtain ⟨dec, hrec⟩ := cfReadBlock_ok_fields P s1 s2 heq2
              subst hrec
              rfl
            · injection heq2 with e1 _
              rw [← e1]
          obtain ⟨hn, hidx', hle, _⟩ := cfReadCore_none P s2 bufLen s' out n h
          exact ⟨hn, by omega, by omega, hle⟩
  · intro P s bufLen s' out n e hun hop hpb hdirty h hn
    rcases hblk : s.plainBlock with _ | pb
    · rw [hblk] at hpb
      simp at hpb
    · simp only [cfRead, hun, hop] at h
      simp only [Bool.false_eq_true, if_false, not_true, ite_false,
        reduceIte] at h
      rw [hblk] at h
      simp only [Option.isNone_some, Bool.false_eq_true, reduceIte] at h
      exact cfReadCore_eof P s bufLen hdirty s' out n e h hn

/-- Witness for C6: a read of 20 bytes at cursor 10 succeeds with a
positive count and cursor within the logical size; a read at
cursor = size delivers nothing and reports end-of-stream. -/
theorem cfRead_spec_witness :
    (0 : Int) ≤ readState1.index ∧
    0 < (cfRead idPrims readState1 20).2.2.1 ∧
    (cfRead idPrims readState1 20).1.index ≤ (cfRead idPrims readState1 20).1.size ∧
    (cfRead idPrims readState2 5).2.2.1 ≤ 0 ∧
    (cfRead idPrims readState2 5).2.2.2 = some .eof := by
  have h1 := cfRead_spec.1 idPrims readState1 20
    (cfRead idPrims readState1 20).1 (cfRead idPrims readState1 20).2.1
    (cfRead idPrims readState1 20).2.2.1 (by decide) (by rfl)
  have h2 := cfRead_spec.2 idPrims readState2 5
    (cfRead idPrims readState2 5).1 (cfRead idPrims readState2 5).2.1
    (cfRead idPrims readState2 5).2.2.1 (cfRead idPrims readState2 5).2.2.2
    rfl rfl rfl rfl (by rfl) (by decide)
  exact ⟨by decide, h1.1, h1.2.2.2, by decide, h2⟩

set_option maxRecDepth 8000 in
/-- Every terminating error exit of the write loop reports count 0,
whatever progress earlier iterations made. -/
theorem cfWriteLoop_error_zero (P : Prims) :
    ∀ (fuel : Nat) (s : CFState) (b : List Nat) (acc : Int)
      (s' : CFState) (n : Int) (e : Err),
      cfWriteLoop P fuel s b acc = (s', n, some e) → e ≠ .fuelOut → n = 0 := by
  intro fuel
  induction fuel with
  | zero =>
    intro s b acc s' n e h hne
    cases b with
    | nil => simp [cfWriteLoop] at h
    | cons x xs =>
      simp only [cfWriteLoop] at h
      injection h with h1 h
      injection h with h2 h
      injection h with h3
      exact absurd h3.symm (by simpa using hne)
  | succ fuel ih =>
    intro s b acc s' n e h hne
    cases b with
    | nil => simp [cfWriteLoop] at h
    | cons x xs =>
      simp only [cfWriteLoop] at h
      split at h
      · rename_i s2 e2 heq
        injection h with h1 h
        injection h with h2 _
        exact h2.symm
      · rename_i s2 heq
        split at h
        · split at h
          · rename_i s3 e3 heq2
            injection h with h1 h
            injection h with h2 _
            exact h2.symm
          · rename_i s3 heq2
            exact ih _ _ _ _ _ _ h hne
        · exact ih _ _ _ _ _ _ h hne

/-- C10: a write call that returns an error reports 0 bytes written,
even when earlier loop iterations already copied input and advanced
the cursor and logical size; that progress is kept in the handle but
never reported.  (`fuelOut` is the model's marker for the one
non-terminating loop configuration, excluded because the Go call never
returns there.) -/
theorem cfWrite_error_zero :
    ∀ (P : Prims) (s : CFState) (b : List Nat) (s' : CFState) (n : Int) (e : Err),
      cfWrite P s b = (s', n, some e) → e ≠ .fuelOut → n = 0 := by
  intro P s b s' n e h hne
  simp only [cfWrite] at h
  split at h
  · injection h with h1 h
    injection h with h2 _
    exact h2.symm
  · split at h
    · rename_i s2 e2 heq
      injection h with h1 h
      injection h with h2 _
      exact h2.symm
    · rename_i s2 heq
      exact cfWriteLoop_error_zero P _ _ _ _ _ _ _ h hne

set_option maxRecDepth 100000 in
/-- Witness for C10: the write fails with the authentication error
after its first iteration copied a byte, flushed the block and
advanced cursor and size from 79 to 80; the reported count is
nevertheless 0 and the progress is not rolled back. -/
theorem cfWrite_error_zero_witness :
    (cfWrite idPrims write10State [1, 2, 3, 4, 5]).2.2 = some Err.keyError ∧
    Err.keyError ≠ Err.fuelOut ∧
    (cfWrite idPrims write10State [1, 2, 3, 4, 5]).2.1 = 0 ∧
    write10State.index = 79 ∧ write10State.size = 79 ∧
    (cfWrite idPrims write10State [1, 2, 3, 4, 5]).1.index = 80 ∧
    (cfWrite idPrims write10State [1, 2, 3, 4, 5]).1.size = 80 := by
  refine ⟨by decide, by decide, ?_, by decide, by decide, by decide, by decide⟩
  exact cfWrite_error_zero idPrims write10State [1, 2, 3, 4, 5]
    (cfWrite idPrims write10State [1, 2, 3, 4, 5]).1
    (cfWrite idPrims write10State [1, 2, 3, 4, 5]).2.1
    Err.keyError (by rfl) (by decide)

/-- Length of an entropy draw. -/
theorem draw_length (s : CFState) (n : Nat) : (draw s n).1.length = n := by
  simp [draw]

/-- The bytes just written by writeAt are read back at the same
offset. -/
theorem writeAt_readBack (d : List Nat) (off : Nat) (bytes : List Nat) :
    ((writeAt d off bytes).drop off).take bytes.length = bytes := by
  unfold writeAt
  have hpre : (d.take off ++ List.replicate (off - d.length) 0).length = off := by
    simp [List.length_take]
    omega
  rw [List.append_assoc, List.drop_left' hpre]
  exact List.take_left' rfl

set_option maxRecDepth 100000 in
/-- C3 counterexample: for the 128-byte-block container written by
writeHeader, the authenticated Header-B envelope following the 32-byte
Header-A is 96 = block_size − 32 bytes — the 128-byte region the claim
describes does not even authenticate — and its decrypted payload is
48 = plain_block_size − 32 bytes (8-byte big-endian size plus 40
padding bytes), not plain_block_size bytes with plain_block_size − 8
of padding. -/
theorem headerB_layout_cex :
    (cfWriteHeader idPrims headerState).2 = none ∧
    (decrypt0 idPrims
        ((((cfWriteHeader idPrims headerState).1.disk.getD []).drop 32).take 128)
        headerState.key).toOption = none ∧
    (decrypt0 idPrims
        ((((cfWriteHeader idPrims headerState).1.disk.getD []).drop 32).take 96)
        headerState.key).toOption.map List.length = some 48 ∧
    headerState.plainBlockSize = 80 ∧ (48 : Nat) ≠ 80 ∧
    (decrypt0 idPrims
        ((((cfWriteHeader idPrims headerState).1.disk.getD []).drop 32).take 96)
        headerState.key).toOption.map (fun l => l.take 8) =
      some (toBE 8 5) := by
  refine ⟨by decide, by decide, by decide, by decide, by decide, by decide⟩

/-- writeAt at offset 0 replaces the file prefix. -/
theorem writeAt_zero (d : List Nat) (bytes : List Nat) :
    writeAt d 0 bytes = bytes ++ d.drop bytes.length := by
  unfold writeAt
  simp

/-- writeAt beyond `off` does not change the first `off` bytes when
they exist. -/
theorem writeAt_take_off (d : List Nat) (off : Nat) (bytes : List Nat)
    (h : off ≤ d.length) :
    (writeAt d off bytes).take off = d.take off := by
  unfold writeAt
  rw [Nat.sub_eq_zero_of_le h]
  simp only [List.replicate_zero, List.append_nil]
  rw [List.append_assoc]
  exact List.take_left' (by simp [List.length_take]; omega)

/-- C3 (amended): writeHeader persists Header-A in the first 32 bytes
and, immediately after it, a Header-B envelope of exactly
`block_size − 32` bytes (so A and B together fill the first block);
Header-B's decrypted payload is the 8-byte big-endian logical size
followed by `plain_block_size − 40` bytes of entropy padding. -/
theorem cfWriteHeader_spec (P : Prims) (s : CFState)
    (hun : s.unknownState = false) (hop : s.fileOpen = true)
    (hbs : 128 ≤ s.blockSize) (halign : s.blockSize % 16 = 0)
    (hpbs : s.plainBlockSize = s.blockSize - 48) :
    (cfWriteHeader P s).2 = none ∧
    ((cfWriteHeader P s).1.disk.getD []).take 32 =
      magic ++ List.replicate 5 0 ++ toBE 4 s.blockSize.toNat
        ++ List.replicate 12 0 ∧
    decrypt0 P ((((cfWriteHeader P s).1.disk.getD []).drop 32).take
        (s.blockSize - 32).toNat) s.key =
      .ok (toBE 8 s.size.toNat ++
        (List.range ((s.plainBlockSize - (header0ASize : Int)).toNat
            - header0BSize)).map (fun i => s.rng (s.rngPos + i) % 256)) ∧
    ((List.range ((s.plainBlockSize - (header0ASize : Int)).toNat
        - header0BSize)).map (fun i => s.rng (s.rngPos + i) % 256)).length
      = s.plainBlockSize.toNat - 40 := by
  have hpnat : s.plainBlockSize.toNat = s.blockSize.toNat - 48 := by
    rw [hpbs]
    omega
  have hbsnat : 128 ≤ s.blockSize.toNat := by omega
  have hbsal : s.blockSize.toNat % 16 = 0 := by omega
  have hpadlen : ((s.plainBlockSize - (header0ASize : Int)).toNat - header0BSize)
      = s.blockSize.toNat - 88 := by
    rw [hpbs]
    simp only [header0ASize, header0BSize]
    omega
  have hdeclen : (toBE 8 s.size.toNat ++
      (List.range ((s.plainBlockSize - (header0ASize : Int)).toNat
        - header0BSize)).map (fun i => s.rng (s.rngPos + i) % 256)).length
      = s.blockSize.toNat - 80 := by
    simp only [List.length_append, toBE, List.length_map, List.length_range,
      hpadlen]
    omega
  have hdecal : (toBE 8 s.size.toNat ++
      (List.range ((s.plainBlockSize - (header0ASize : Int)).toNat
        - header0BSize)).map (fun i => s.rng (s.rngPos + i) % 256)).length
      % 16 = 0 := by
    rw [hdeclen]
    omega
  have hivlen : ((List.range aesBlockSize).map
      (fun i => s.rng (s.rngPos + ((s.plainBlockSize - (header0ASize : Int)).toNat
        - header0BSize) + i) % 256)).length = 16 := by
    simp [aesBlockSize]
  have henc := encrypt0_ok P
    (toBE 8 s.size.toNat ++
      (List.range ((s.plainBlockSize - (header0ASize : Int)).toNat
        - header0BSize)).map (fun i => s.rng (s.rngPos + i) % 256))
    s.key
    ((List.range aesBlockSize).map
      (fun i => s.rng (s.rngPos + ((s.plainBlockSize - (header0ASize : Int)).toNat
        - header0BSize) + i) % 256))
    hdecal
  have henclen := encrypt0_ok_length P _ s.key _ _ hdecal hivlen henc
  rw [hdeclen] at henclen
  have hhalen : (magic ++ List.replicate 5 0 ++ toBE 4 s.blockSize.toNat
      ++ List.replicate 12 0).length = 32 := by
    simp [magic, toBE]
  simp only [cfWriteHeader, hun, hop, draw]
  rw [henc]
  simp only [Bool.false_eq_true, if_false, not_true, ite_false, reduceIte,
    reduceCtorEq, Option.getD_some]
  refine ⟨trivial, ?_, ?_, ?_⟩
  · have hlen32 : header0ASize ≤ (writeAt (s.disk.getD []) 0
        (magic ++ List.replicate 5 0 ++ toBE 4 s.blockSize.toNat
          ++ List.replicate 12 0)).length := by
      rw [writeAt_zero]
      simp only [List.length_append, hhalen, header0ASize]
      omega
    rw [show (32 : Nat) = header0ASize from rfl]
    rw [writeAt_take_off _ header0ASize _ hlen32]
    rw [writeAt_zero]
    exact List.take_left' (show (magic ++ List.replicate 5 0
      ++ toBE 4 s.blockSize.toNat ++ List.replicate 12 0).length = header0ASize
      from hhalen)
  · rw [show (s.blockSize - 32).toNat = 48 + (s.blockSize.toNat - 80) from by omega]
    rw [← henclen]
    rw [show (32 : Nat) = header0ASize from rfl]
    rw [writeAt_readBack]
    exact decrypt0_encrypt0 P _ s.key _ _ hdecal hivlen henc
  · simp only [List.length_map, List.length_range]
    rw [hpadlen]
    omega

/-- Witness for C3 (amended) at the concrete 128-byte-block handle. -/
theorem cfWriteHeader_spec_witness :
    headerState.unknownState = false ∧ 128 ≤ headerState.blockSize ∧
    headerState.blockSize % 16 = 0 ∧
    (cfWriteHeader idPrims headerState).2 = none ∧
    decrypt0 idPrims
        ((((cfWriteHeader idPrims headerState).1.disk.getD []).drop 32).take
          (headerState.blockSize - 32).toNat) headerState.key =
      .ok (toBE 8 headerState.size.toNat ++
        (List.range ((headerState.plainBlockSize - (header0ASize : Int)).toNat
          - header0BSize)).map
          (fun i => headerState.rng (headerState.rngPos + i) % 256)) ∧
    ((List.range ((headerState.plainBlockSize - (header0ASize : Int)).toNat
        - header0BSize)).map
        (fun i => headerState.rng (headerState.rngPos + i) % 256)).length
      = headerState.plainBlockSize.toNat - 40 := by
  have h := cfWriteHeader_spec idPrims headerState rfl rfl (by decide) (by decide)
    (by decide)
  exact ⟨rfl, by decide, by decide, h.1, h.2.2.1, h.2.2.2⟩

/-- Powers of two between 2^7 and 2^16 lie in [128, 65536] and are
multiples of 16. -/
theorem pow2_facts (j : Nat) (h7 : 7 ≤ j) (h16 : j ≤ 16) :
    128 ≤ (2 : Int) ^ j ∧ (2 : Int) ^ j ≤ 65536 ∧ (2 : Int) ^ j % 16 = 0 := by
  refine ⟨?_, ?_, ?_⟩
  · calc (128 : Int) = 2 ^ 7 := by norm_num
      _ ≤ 2 ^ j := pow_le_pow_right₀ (by norm_num) h7
  · calc (2 : Int) ^ j ≤ 2 ^ 16 := pow_le_pow_right₀ (by norm_num) h16
      _ = 65536 := by norm_num
  · obtain ⟨j', rfl⟩ : ∃ j', j = j' + 4 := ⟨j - 4, by omega⟩
    have h : (2 : Int) ^ (j' + 4) = 16 * 2 ^ j' := by ring
    omega

/-- The candidate scan only ever returns a power of two with exponent
between 7 and 16. -/
theorem bsfsGo_range (size : Int) :
    ∀ (fuel : Nat) (i j : Nat) (bestW : Int),
      i ≤ 16 → 7 ≤ j → j ≤ 16 →
      128 ≤ bsfsGo size fuel (2 ^ i) (2 ^ j) bestW ∧
      bsfsGo size fuel (2 ^ i) (2 ^ j) bestW ≤ 65536 ∧
      bsfsGo size fuel (2 ^ i) (2 ^ j) bestW % 16 = 0 := by
  intro fuel
  induction fuel with
  | zero =>
    intro i j bestW hi h7 h16
    exact pow2_facts j h7 h16
  | succ fuel ih =>
    intro i j bestW hi h7 h16
    rw [bsfsGo]
    split
    · rename_i hge
      have hi7 : 7 ≤ i := by
        by_contra hlt
        have hge' : (128 : Int) ≤ 2 ^ i := by simpa [minBlockSize] using hge
        have : (2 : Int) ^ i ≤ 2 ^ 6 :=
          pow_le_pow_right₀ (by norm_num) (by omega)
        norm_num at this
        omega
      obtain ⟨i', rfl⟩ : ∃ i', i = i' + 1 := ⟨i - 1, by omega⟩
      have hhalf : (2 : Int) ^ (i' + 1) / 2 = 2 ^ i' := by
        rw [pow_succ]
        exact Int.mul_ediv_cancel _ (by norm_num)
      rw [hhalf]
      split
      · exact ih i' (i' + 1) _ (by omega) (by omega) (by omega)
      · exact ih i' j _ (by omega) h7 h16
    · exact pow2_facts j h7 h16
/-- blockSizeForSize always yields a block size between 128 and 65536
that is a multiple of 16. -/
theorem blockSizeForSize_range (est : Int) :
    128 ≤ blockSizeForSize est ∧ blockSizeForSize est ≤ 65536 ∧
    blockSizeForSize est % 16 = 0 := by
  unfold blockSizeForSize
  split
  · exact ⟨by norm_num [minBlockSize], by norm_num [minBlockSize],
      by norm_num [minBlockSize]⟩
  · have h := bsfsGo_range est 20 16 16 (-1) (by norm_num) (by norm_num)
      (by norm_num)
    norm_num at h
    refine ⟨h.1, h.2.1, ?_⟩
    omega

/-- Width of a big-endian encoding. -/
theorem toBE_length (w n : Nat) : (toBE w n).length = w := by
  simp [toBE]

/-- Peeling one byte off a big-endian encoding. -/
theorem toBE_succ (w n : Nat) :
    toBE (w + 1) n = (n / 256 ^ w % 256) :: toBE w (n % 256 ^ w) := by
  unfold toBE
  rw [List.range_succ_eq_map]
  simp only [List.map_cons, List.map_map]
  congr 1
  apply List.map_congr_left
  intro a ha
  rw [List.mem_range] at ha
  simp only [Function.comp_apply]
  have he : w + 1 - 1 - Nat.succ a = w - 1 - a := by omega
  rw [he]
  obtain ⟨d, hd⟩ : ∃ d, w = (w - 1 - a) + 1 + d := ⟨w - (w - 1 - a + 1), by omega⟩
  have hsplit : n = n % 256 ^ w + 256 ^ (w - 1 - a) * (256 ^ (1 + d) * (n / 256 ^ w)) := by
    have h1 : 256 ^ w = 256 ^ (w - 1 - a) * 256 ^ (1 + d) := by
      rw [← pow_add]
      congr 1
      omega
    calc n = n % 256 ^ w + 256 ^ w * (n / 256 ^ w) := by
            rw [Nat.mod_add_div]
      _ = n % 256 ^ w + 256 ^ (w - 1 - a) * (256 ^ (1 + d) * (n / 256 ^ w)) := by
            rw [h1, mul_assoc]
  calc n / 256 ^ (w - 1 - a) % 256
      = (n % 256 ^ w + 256 ^ (w - 1 - a) * (256 ^ (1 + d) * (n / 256 ^ w)))
          / 256 ^ (w - 1 - a) % 256 := by rw [← hsplit]
    _ = (n % 256 ^ w / 256 ^ (w - 1 - a) + 256 ^ (1 + d) * (n / 256 ^ w)) % 256 := by
          rw [Nat.add_mul_div_left _ _ (Nat.pos_pow_of_pos _ (by norm_num))]
    _ = (n % 256 ^ w / 256 ^ (w - 1 - a) + 256 * (256 ^ d * (n / 256 ^ w))) % 256 := by
          congr 2
          rw [pow_add]
          ring
    _ = n % 256 ^ w / 256 ^ (w - 1 - a) % 256 := by
          rw [Nat.add_mul_mod_self_left]

/-- Folding with a nonzero accumulator. -/
theorem beU_aux (l : List Nat) :
    ∀ a : Nat, l.foldl (fun x y => x * 256 + y) a = a * 256 ^ l.length + beU l := by
  induction l with
  | nil => intro a; simp [beU]
  | cons x xs ih =>
    intro a
    simp only [List.foldl_cons, List.length_cons]
    rw [ih (a * 256 + x), show beU (x :: xs) = (x :: xs).foldl (fun x y => x * 256 + y) 0 from rfl]
    simp only [List.foldl_cons]
    rw [ih (0 * 256 + x)]
    ring

/-- Decoding inverts encoding for values within range. -/
theorem beU_toBE (w n : Nat) (h : n < 256 ^ w) : beU (toBE w n) = n := by
  induction w generalizing n with
  | zero =>
    simp only [pow_zero, Nat.lt_one_iff] at h
    subst h
    rfl
  | succ w ih =>
    rw [toBE_succ]
    show (toBE w (n % 256 ^ w)).foldl (fun x y => x * 256 + y)
      (0 * 256 + n / 256 ^ w % 256) = n
    rw [beU_aux, toBE_length, ih (n % 256 ^ w) (Nat.mod_lt _ (Nat.pos_pow_of_pos _ (by norm_num)))]
    have hq : n / 256 ^ w < 256 := by
      rw [Nat.div_lt_iff_lt_mul (Nat.pos_pow_of_pos _ (by norm_num))]
      calc n < 256 ^ (w + 1) := h
        _ = 256 ^ w * 256 := by rw [pow_succ]
        _ = 256 * 256 ^ w := by ring
    rw [Nat.mod_eq_of_lt hq]
    rw [zero_mul, zero_add]
    rw [Nat.mul_comm (n / 256 ^ w) (256 ^ w)]
    exact Nat.div_add_mod n (256 ^ w)

/-- Length of the file after a WriteAt. -/
theorem writeAt_length (d : List Nat) (off : Nat) (bytes : List Nat) :
    (writeAt d off bytes).length = max d.length (off + bytes.length) := by
  unfold writeAt
  simp only [List.length_append, List.length_take, List.length_replicate,
    List.length_drop]
  omega

/-- WriteAt at or beyond the end appends (zero-padding any gap). -/
theorem writeAt_ge (d : List Nat) (off : Nat) (bytes : List Nat)
    (h : d.length ≤ off) :
    writeAt d off bytes = d ++ List.replicate (off - d.length) 0 ++ bytes := by
  unfold writeAt
  rw [List.take_of_length_le h, List.drop_of_length_le (by omega)]
  simp

/-- Reading a range inside the original file ignores appended data. -/
theorem readAt_append (d x : List Nat) (a l : Nat) (h : a + l ≤ d.length) :
    readAt (d ++ x) a l = readAt d a l := by
  unfold readAt
  rw [if_pos (by simp; omega), if_pos (by omega)]
  rw [List.drop_append_of_le_length (by omega)]
  rw [List.take_append_of_le_length (by simp; omega)]

/-- Cast arithmetic for block offsets. -/
theorem blockOff_toNat (B : Int) (hB : 0 ≤ B) (i : Nat) :
    (B + (i : Int) * B).toNat = B.toNat + i * B.toNat := by
  have h1 : ((i : Int) * B).toNat = i * B.toNat := by
    rcases Int.eq_ofNat_of_zero_le hB with ⟨n, rfl⟩
    rw [← Int.natCast_mul, Int.toNat_natCast, Int.toNat_natCast]
  have h2 : 0 ≤ (i : Int) * B := mul_nonneg (by positivity) hB
  omega

/-- Euclidean division of an exact block-aligned cursor. -/
theorem cursor_div (k : Nat) (p : Int) (hp : 0 < p) : ((k : Int) * p) / p = k :=
  Int.mul_ediv_cancel _ (by omega)

/-- At the loop head the cache is empty and the next block is past
end-of-file, so the internal read reports EOF. -/
theorem cfReadBlock_loopState_eof (P : Prims) (key : List Nat) (fb B : Int)
    (D : List Nat) (rng : Nat → Nat) (r : Nat) (k : Nat)
    (hB : 128 ≤ B) (hD : D.length ≤ B.toNat + k * B.toNat) :
    cfReadBlock P (loopState key fb B D rng r ((k : Int) * (B - 48))) =
      (loopState key fb B D rng r ((k : Int) * (B - 48)), some .eof) := by
  unfold cfReadBlock loopState
  rw [if_neg (by simp; omega)]
  simp only [Option.getD_some]
  rw [cursor_div k (B - 48) (by omega)]
  rw [blockOff_toNat B (by omega) k]
  unfold readAt
  rw [if_neg (by omega)]

/-- A successful ReadAt implies the range was in bounds. -/
theorem readAt_ok_bound (d : List Nat) (a l : Nat) (x : List Nat)
    (h : readAt d a l = .ok x) : a + l ≤ d.length := by
  unfold readAt at h
  by_cases hb : a + l ≤ d.length
  · exact hb
  · rw [if_neg hb] at h
    cases h

/-- Appending to the file preserves every established block. -/
theorem BlockOK_ext (P : Prims) (key : List Nat) (B : Int) (D ext : List Nat)
    (i : Nat) (c : List Nat) (h : BlockOK P key B D i c) :
    BlockOK P key B (D ++ ext) i c := by
  obtain ⟨enc, hra, hdec⟩ := h
  exact ⟨enc, by rw [readAt_append _ _ _ _ (readAt_ok_bound _ _ _ _ hra)]; exact hra,
    hdec⟩

/-- The block just appended by a flush is readable and decodes to the
flushed cache. -/
theorem BlockOK_new (P : Prims) (key : List Nat) (B : Int) (A enc c : List Nat)
    (k : Nat) (hA : A.length = B.toNat + k * B.toNat)
    (hlen : enc.length = B.toNat) (hdec : decrypt0 P enc key = .ok c) :
    BlockOK P key B (A ++ enc) k c := by
  refine ⟨enc, ?_, hdec⟩
  unfold readAt
  rw [if_pos (by simp [hA, hlen])]
  rw [List.drop_left' hA]
  rw [List.take_of_length_le (by omega)]

set_option maxRecDepth 4000 in
/-- Flushing a full cache at an exactly block-aligned cursor appends
one encrypted block (padding any gap with zeros) and clears the dirty
bit. -/
theorem cfFlush_loopStateC (P : Prims) (key : List Nat) (fb B : Int)
    (D : List Nat) (rng : Nat → Nat) (r : Nat) (k : Nat) (cache : List Nat)
    (ci : Int)
    (hB : 128 ≤ B) (hal : B % 16 = 0) (hcache : cache.length = (B - 48).toNat)
    (hD : D.length ≤ B.toNat + k * B.toNat) :
    ∃ enc : List Nat,
      cfFlush P (loopStateC key fb B D rng r ((k : Int) * (B - 48)) cache ci) =
        ({ loopStateC key fb B
            (D ++ List.replicate (B.toNat + k * B.toNat - D.length) 0 ++ enc)
            rng (r + 16) ((k : Int) * (B - 48)) cache ci
          with plainBlockDirty := false }, none) ∧
      enc.length = B.toNat ∧
      decrypt0 P enc key = .ok cache := by
  have hcal : cache.length % 16 = 0 := by
    rw [hcache]
    omega
  have hiv : ((List.range aesBlockSize).map
      (fun i => rng (r + i) % 256)).length = 16 := by simp [aesBlockSize]
  have henc := encrypt0_ok P cache key
    ((List.range aesBlockSize).map (fun i => rng (r + i) % 256)) hcal
  have henclen := encrypt0_ok_length P cache key _ _ hcal hiv henc
  refine ⟨_, ?_, ?_, decrypt0_encrypt0 P cache key _ _ hcal hiv henc⟩
  · unfold cfFlush draw loopStateC
    rw [if_neg (by simp)]
    simp only [Option.getD_some]
    rw [cursor_div k (B - 48) (by omega)]
    rw [blockOff_toNat B (by omega) k]
    split
    · rename_i e' hbad
      rw [henc] at hbad
      cases hbad
    · rename_i enc' hok
      rw [henc] at hok
      injection hok with hok
      subst hok
      rw [writeAt_ge _ _ _ hD]
      rfl
  · rw [henclen, hcache]
    omega

set_option maxRecDepth 8000 in
/-- Main invariant of the fresh-file write loop: starting at a
block-aligned cursor `k` blocks in, writing `b` appends one encrypted
block per full chunk of `b` (each decoding to exactly that chunk) and
leaves any final partial chunk in a dirty cache topped up with fresh
entropy; the call reports every byte written. -/
theorem cfWriteLoop_fresh (P : Prims) (key : List Nat) (fb B : Int)
    (hB : 128 ≤ B) (hal : B % 16 = 0) :
    ∀ (fuel : Nat) (b : List Nat) (k : Nat) (D : List Nat) (rng : Nat → Nat)
      (r : Nat) (acc : Int),
      b.length < fuel →
      D.length ≤ B.toNat + k * B.toNat →
      ∃ (D' : List Nat) (r' : Nat) (tail ext : List Nat),
        cfWriteLoop P fuel (loopState key fb B D rng r ((k : Int) * (B - 48)))
            b acc =
          ((if b.length % (B - 48).toNat = 0 then
              loopState key fb B D' rng r'
                ((k : Int) * (B - 48) + (b.length : Int))
            else
              loopStateC key fb B D' rng r'
                ((k : Int) * (B - 48) + (b.length : Int))
                (b.drop (b.length / (B - 48).toNat * (B - 48).toNat) ++ tail)
                ((b.length % (B - 48).toNat : Nat) : Int)),
           acc + (b.length : Int), none) ∧
        D' = D ++ ext ∧
        (b.length / (B - 48).toNat = 0 → D' = D) ∧
        (1 ≤ b.length / (B - 48).toNat →
          D'.length = B.toNat + (k + b.length / (B - 48).toNat) * B.toNat) ∧
        (∀ j, j < b.length / (B - 48).toNat →
          BlockOK P key B D' (k + j)
            ((b.drop (j * (B - 48).toNat)).take (B - 48).toNat)) ∧
        (b.drop (b.length / (B - 48).toNat * (B - 48).toNat) ++ tail).length
          = (B - 48).toNat := by
  have hp : 0 < (B - 48).toNat := by omega
  intro fuel
  induction fuel with
  | zero =>
    intro b k D rng r acc hf hD
    omega
  | succ fuel ih =>
    intro b k D rng r acc hf hD
    cases b with
    | nil =>
      refine ⟨D, r, List.replicate (B - 48).toNat 0, [], ?_, by simp, fun _ => rfl,
        by simp, by simp, by simp⟩
      simp [cfWriteLoop]
    | cons x bs =>
      have hrb := cfReadBlock_loopState_eof P key fb B D rng r k hB hD
      simp only [cfWriteLoop, loopState, Option.isNone_none, if_true, reduceIte] at hrb ⊢
      rw [hrb]
      simp only [draw, Option.getD_some, reduceIte, List.length_map,
        List.length_range, List.length_cons, Int.toNat_zero, List.drop_zero,
        List.take_zero, List.nil_append, Nat.sub_zero, Nat.zero_add, zero_add]
      have hpint : ((B - 48).toNat : Int) = B - 48 := Int.toNat_of_nonneg (by omega)
      have hn2pos : 0 < (B - 48).toNat ⊓ (bs.length + 1) :=
        lt_min hp (Nat.succ_pos _)
      rw [dif_pos hn2pos]
      by_cases hfull : (B - 48).toNat ≤ bs.length + 1
      · -- a full block is copied and flushed
        have hmin : (B - 48).toNat ⊓ (bs.length + 1) = (B - 48).toNat :=
          min_eq_left hfull
        rw [hmin]
        rw [if_pos (by rw [hpint])]
        rw [List.drop_of_length_le (by simp), List.append_nil]
        have hclen : (List.take (B - 48).toNat (x :: bs)).length = (B - 48).toNat := by
          simp [List.length_take]
          omega
        obtain ⟨enc, hfl, henclen2, hdec⟩ := cfFlush_loopStateC P key fb B D rng
          (r + (B - 48).toNat) k (List.take (B - 48).toNat (x :: bs))
          ((B - 48).toNat : Int) hB hal hclen hD
        simp only [loopStateC] at hfl
        rw [hfl]
        simp only []
        have hidx : ((k : Int) * (B - 48) + ((B - 48).toNat : Int)) =
            (((k + 1 : Nat) : Int)) * (B - 48) := by
          rw [hpint]
          push_cast
          ring
        rw [hidx]
        have hfuel2 : (List.drop (B - 48).toNat (x :: bs)).length < fuel := by
          simp only [List.length_drop, List.length_cons]
          simp only [List.length_cons] at hf
          omega
        have hD2 : (D ++ List.replicate (B.toNat + k * B.toNat - D.length) 0
            ++ enc).length ≤ B.toNat + (k + 1) * B.toNat := by
          simp only [List.length_append, List.length_replicate, henclen2]
          have hexp : (k + 1) * B.toNat = k * B.toNat + B.toNat := by ring
          omega
        obtain ⟨D'', r'', tail'', ext'', heq, hext, hk0, hklen, hblocks, hcachelen⟩ :=
          ih (List.drop (B - 48).toNat (x :: bs)) (k + 1)
            (D ++ List.replicate (B.toNat + k * B.toNat - D.length) 0 ++ enc)
            rng (r + (B - 48).toNat + 16) (acc + ((B - 48).toNat : Int))
            hfuel2 hD2
        have hlen1 : (List.drop (B - 48).toNat (x :: bs)).length
            = bs.length + 1 - (B - 48).toNat := by
          simp
        rw [hlen1] at heq hcachelen hk0 hklen hblocks
        simp only [loopState, loopStateC] at heq
        rw [heq]
        have hmod : (bs.length + 1) % (B - 48).toNat
            = (bs.length + 1 - (B - 48).toNat) % (B - 48).toNat :=
          Nat.mod_eq_sub_mod hfull
        have hdiv : (bs.length + 1) / (B - 48).toNat
            = (bs.length + 1 - (B - 48).toNat) / (B - 48).toNat + 1 :=
          Nat.div_eq_sub_div hp hfull
        have hsub : ((bs.length + 1 - (B - 48).toNat : Nat) : Int)
            = ((bs.length + 1 : Nat) : Int) - ((B - 48).toNat : Int) :=
          Nat.cast_sub hfull
        have hidx2 : (((k + 1 : Nat) : Int)) * (B - 48)
            + ((bs.length + 1 - (B - 48).toNat : Nat) : Int)
            = (k : Int) * (B - 48) + ((bs.length + 1 : Nat) : Int) := by
          rw [hsub, hpint]
          push_cast
          ring
        have hacc2 : acc + ((B - 48).toNat : Int)
            + ((bs.length + 1 - (B - 48).toNat : Nat) : Int)
            = acc + ((bs.length + 1 : Nat) : Int) := by
          rw [hsub]
          ring
        have hdropsq : List.drop ((bs.length + 1 - (B - 48).toNat)
              / (B - 48).toNat * (B - 48).toNat)
              (List.drop (B - 48).toNat (x :: bs))
            = List.drop ((bs.length + 1) / (B - 48).toNat * (B - 48).toNat)
              (x :: bs) := by
          rw [List.drop_drop, hdiv]
          congr 1
          ring
        refine ⟨D'', r'', tail'',
          List.replicate (B.toNat + k * B.toNat - D.length) 0 ++ enc ++ ext'',
          ?_, ?_, ?_, ?_, ?_, ?_⟩
        · rw [hmod, ← hdropsq, ← hidx2, ← hacc2]
          simp only [loopStateC]
        · rw [hext]
          simp [List.append_assoc]
        · intro h0
          rw [hdiv] at h0
          exact absurd h0 (Nat.succ_ne_zero _)
        · intro _
          rw [hdiv]
          rcases Nat.eq_zero_or_pos ((bs.length + 1 - (B - 48).toNat)
              / (B - 48).toNat) with hz | hz
          · rw [hz, hk0 hz]
            simp only [List.length_append, List.length_replicate, henclen2]
            have hexp : (k + (0 + 1)) * B.toNat = k * B.toNat + B.toNat := by ring
            omega
          · rw [hklen hz]
            ring
        · intro j hj
          rw [hdiv] at hj
          cases j with
          | zero =>
            simp only [Nat.add_zero, Nat.zero_mul, List.drop_zero]
            rw [hext]
            apply BlockOK_ext
            exact BlockOK_new P key B _ enc _ k
              (by simp only [List.length_append, List.length_replicate]; omega)
              henclen2 hdec
          | succ j' =>
            have hb := hblocks j' (by omega)
            have hik : k + 1 + j' = k + (j' + 1) := by omega
            rw [hik] at hb
            rw [List.drop_drop] at hb
            rw [show (B - 48).toNat + j' * (B - 48).toNat
              = (j' + 1) * (B - 48).toNat from by ring] at hb
            exact hb
        · rw [← hdropsq]
          exact hcachelen
      · -- the input fits strictly inside one block
        have hlt : bs.length + 1 < (B - 48).toNat := by omega
        have hmin : (B - 48).toNat ⊓ (bs.length + 1) = bs.length + 1 :=
          min_eq_right (by omega)
        rw [hmin]
        rw [if_neg (by omega)]
        rw [show List.drop (bs.length + 1) (x :: bs) = [] from
          List.drop_of_length_le (by simp)]
        rw [show List.take (bs.length + 1) (x :: bs) = x :: bs from
          List.take_of_length_le (by simp)]
        simp only [cfWriteLoop]
        refine ⟨D, r + (B - 48).toNat,
          List.drop (bs.length + 1)
            ((List.range (B - 48).toNat).map (fun i => rng (r + i) % 256)),
          [], ?_, by simp, fun _ => rfl, ?_, ?_, ?_⟩
        · have hmodlt : (bs.length + 1) % (B - 48).toNat = bs.length + 1 :=
            Nat.mod_eq_of_lt hlt
          have hdivlt : (bs.length + 1) / (B - 48).toNat = 0 :=
            Nat.div_eq_of_lt hlt
          rw [hmodlt, hdivlt]
          rw [if_neg (by omega)]
          simp only [loopStateC, Nat.zero_mul, List.drop_zero]
        · intro h1
          rw [Nat.div_eq_of_lt hlt] at h1
          omega
        · intro j hj
          rw [Nat.div_eq_of_lt hlt] at hj
          omega
        · rw [Nat.div_eq_of_lt hlt]
          simp only [Nat.zero_mul, List.drop_zero, List.length_append,
            List.length_cons, List.length_drop, List.length_map,
            List.length_range]
          omega

/-- A cursor mid-block divides down to its block number. -/
theorem cursor_div_add (k m : Nat) (p : Int) (hp : 0 < p) (hm : (m : Int) < p) :
    ((k : Int) * p + (m : Int)) / p = k := by
  rw [add_comm, Int.add_mul_ediv_right _ _ (by omega : p ≠ 0)]
  rw [Int.ediv_eq_zero_of_lt (by positivity) hm]
  simp

set_option maxRecDepth 4000 in
/-- Flushing a full cache with the cursor `m` bytes into block `k`
stores one encrypted block at slot `k` (padding any gap with zeros)
and clears the dirty bit. -/
theorem cfFlush_loopStateC_at (P : Prims) (key : List Nat) (fb B : Int)
    (D : List Nat) (rng : Nat → Nat) (r : Nat) (k m : Nat) (cache : List Nat)
    (ci : Int)
    (hB : 128 ≤ B) (hal : B % 16 = 0) (hm : m < (B - 48).toNat)
    (hcache : cache.length = (B - 48).toNat)
    (hD : D.length ≤ B.toNat + k * B.toNat) :
    ∃ enc : List Nat,
      cfFlush P (loopStateC key fb B D rng r
          ((k : Int) * (B - 48) + (m : Int)) cache ci) =
        ({ loopStateC key fb B
            (D ++ List.replicate (B.toNat + k * B.toNat - D.length) 0 ++ enc)
            rng (r + 16) ((k : Int) * (B - 48) + (m : Int)) cache ci
          with plainBlockDirty := false }, none) ∧
      enc.length = B.toNat ∧
      decrypt0 P enc key = .ok cache := by
  have hcal : cache.length % 16 = 0 := by
    rw [hcache]
    omega
  have hiv : ((List.range aesBlockSize).map
      (fun i => rng (r + i) % 256)).length = 16 := by simp [aesBlockSize]
  have henc := encrypt0_ok P cache key
    ((List.range aesBlockSize).map (fun i => rng (r + i) % 256)) hcal
  have henclen := encrypt0_ok_length P cache key _ _ hcal hiv henc
  refine ⟨_, ?_, ?_, decrypt0_encrypt0 P cache key _ _ hcal hiv henc⟩
  · unfold cfFlush draw loopStateC
    rw [if_neg (by simp)]
    simp only [Option.getD_some]
    rw [cursor_div_add k m (B - 48) (by omega) (by omega)]
    rw [blockOff_toNat B (by omega) k]
    split
    · rename_i e' hbad
      rw [henc] at hbad
      cases hbad
    · rename_i enc' hok
      rw [henc] at hok
      injection hok with hok
      subst hok
      rw [writeAt_ge _ _ _ hD]
      rfl
  · rw [henclen, hcache]
    omega

set_option maxRecDepth 100000 in
/-- writeHeader's effect on the disk image: the first `blockSize`
bytes become Header-A (32 bytes) followed by the Header-B envelope
(`blockSize - 32` bytes decoding to the big-endian logical size plus
entropy padding); everything from offset `blockSize` on is preserved. -/
theorem cfWriteHeader_disk (P : Prims) (s : CFState)
    (hun : s.unknownState = false) (hop : s.fileOpen = true)
    (hbs : 128 ≤ s.blockSize) (halign : s.blockSize % 16 = 0)
    (hpbs : s.plainBlockSize = s.blockSize - 48) :
    ∃ enc : List Nat,
      cfWriteHeader P s =
        ({ s with
            disk := some (magic ++ List.replicate 5 0
              ++ toBE 4 s.blockSize.toNat ++ List.replicate 12 0 ++ enc
              ++ (s.disk.getD []).drop s.blockSize.toNat)
            rngPos := s.rngPos + (s.blockSize.toNat - 88) + 16 }, none) ∧
      enc.length = s.blockSize.toNat - 32 ∧
      decrypt0 P enc s.key =
        .ok (toBE 8 s.size.toNat ++ (List.range (s.blockSize.toNat - 88)).map
          (fun i => s.rng (s.rngPos + i) % 256)) := by
  have hbsnat : 128 ≤ s.blockSize.toNat := by omega
  have hbsal : s.blockSize.toNat % 16 = 0 := by omega
  have hpadlen : (s.plainBlockSize - (header0ASize : Int)).toNat - header0BSize
      = s.blockSize.toNat - 88 := by
    rw [hpbs]
    simp only [header0ASize, header0BSize]
    omega
  have hdecal : (toBE 8 s.size.toNat ++ (List.range (s.blockSize.toNat - 88)).map
      (fun i => s.rng (s.rngPos + i) % 256)).length % 16 = 0 := by
    simp only [List.length_append, toBE, List.length_map, List.length_range]
    omega
  have hiv : ((List.range aesBlockSize).map
      (fun i => s.rng (s.rngPos + (s.blockSize.toNat - 88) + i) % 256)).length
      = 16 := by simp [aesBlockSize]
  have henc := encrypt0_ok P
    (toBE 8 s.size.toNat ++ (List.range (s.blockSize.toNat - 88)).map
      (fun i => s.rng (s.rngPos + i) % 256))
    s.key
    ((List.range aesBlockSize).map
      (fun i => s.rng (s.rngPos + (s.blockSize.toNat - 88) + i) % 256))
    hdecal
  have henclen := encrypt0_ok_length P _ s.key _ _ hdecal hiv henc
  have henclen2 : (newHMAC P
        (((List.range aesBlockSize).map
            (fun i => s.rng (s.rngPos + (s.blockSize.toNat - 88) + i) % 256)) ++
          cbcEnc P s.key
            ((List.range aesBlockSize).map
              (fun i => s.rng (s.rngPos + (s.blockSize.toNat - 88) + i) % 256))
            (toBE 8 s.size.toNat ++ (List.range (s.blockSize.toNat - 88)).map
              (fun i => s.rng (s.rngPos + i) % 256))) s.key ++
        ((List.range aesBlockSize).map
          (fun i => s.rng (s.rngPos + (s.blockSize.toNat - 88) + i) % 256)) ++
        cbcEnc P s.key
          ((List.range aesBlockSize).map
            (fun i => s.rng (s.rngPos + (s.blockSize.toNat - 88) + i) % 256))
          (toBE 8 s.size.toNat ++ (List.range (s.blockSize.toNat - 88)).map
            (fun i => s.rng (s.rngPos + i) % 256))).length
      = s.blockSize.toNat - 32 := by
    have := encrypt0_ok_length P _ s.key _ _ hdecal hiv henc
    simp only [List.length_append, toBE, List.length_map, List.length_range] at this ⊢
    omega
  have hhalen : (magic ++ List.replicate 5 0 ++ toBE 4 s.blockSize.toNat
      ++ List.replicate 12 0).length = 32 := by
    simp [magic, toBE]
  refine ⟨_, ?_, henclen2, decrypt0_encrypt0 P _ s.key _ _ hdecal hiv henc⟩
  simp only [cfWriteHeader, hun, hop, draw, Option.getD_some, Bool.false_eq_true,
    if_false, not_true, ite_false, reduceIte, reduceCtorEq]
  rw [hpadlen]
  rw [henc]
  simp only [aesBlockSize]
  have hd1 : writeAt (s.disk.getD []) 0 (magic ++ List.replicate 5 0
      ++ toBE 4 s.blockSize.toNat ++ List.replicate 12 0)
      = (magic ++ List.replicate 5 0 ++ toBE 4 s.blockSize.toNat
        ++ List.replicate 12 0) ++ (s.disk.getD []).drop 32 := by
    rw [writeAt_zero, hhalen]
  rw [hd1]
  have hd2 : writeAt ((magic ++ List.replicate 5 0 ++ toBE 4 s.blockSize.toNat
      ++ List.replicate 12 0) ++ (s.disk.getD []).drop 32) header0ASize
      (newHMAC P
        (((List.range 16).map
            (fun i => s.rng (s.rngPos + (s.blockSize.toNat - 88) + i) % 256)) ++
          cbcEnc P s.key
            ((List.range 16).map
              (fun i => s.rng (s.rngPos + (s.blockSize.toNat - 88) + i) % 256))
            (toBE 8 s.size.toNat ++ (List.range (s.blockSize.toNat - 88)).map
              (fun i => s.rng (s.rngPos + i) % 256))) s.key ++
        ((List.range 16).map
          (fun i => s.rng (s.rngPos + (s.blockSize.toNat - 88) + i) % 256)) ++
        cbcEnc P s.key
          ((List.range 16).map
            (fun i => s.rng (s.rngPos + (s.blockSize.toNat - 88) + i) % 256))
          (toBE 8 s.size.toNat ++ (List.range (s.blockSize.toNat - 88)).map
            (fun i => s.rng (s.rngPos + i) % 256)))
      = magic ++ List.replicate 5 0 ++ toBE 4 s.blockSize.toNat
        ++ List.replicate 12 0
        ++ (newHMAC P
            (((List.range 16).map
                (fun i => s.rng (s.rngPos + (s.blockSize.toNat - 88) + i) % 256)) ++
              cbcEnc P s.key
                ((List.range 16).map
                  (fun i => s.rng (s.rngPos + (s.blockSize.toNat - 88) + i) % 256))
                (toBE 8 s.size.toNat ++ (List.range (s.blockSize.toNat - 88)).map
                  (fun i => s.rng (s.rngPos + i) % 256))) s.key ++
            ((List.range 16).map
              (fun i => s.rng (s.rngPos + (s.blockSize.toNat - 88) + i) % 256)) ++
            cbcEnc P s.key
              ((List.range 16).map
                (fun i => s.rng (s.rngPos + (s.blockSize.toNat - 88) + i) % 256))
              (toBE 8 s.size.toNat ++ (List.range (s.blockSize.toNat - 88)).map
                (fun i => s.rng (s.rngPos + i) % 256)))
        ++ (s.disk.getD []).drop s.blockSize.toNat := by
    have hencl : (newHMAC P
          (((List.range 16).map
              (fun i => s.rng (s.rngPos + (s.blockSize.toNat - 88) + i) % 256)) ++
            cbcEnc P s.key
              ((List.range 16).map
                (fun i => s.rng (s.rngPos + (s.blockSize.toNat - 88) + i) % 256))
              (toBE 8 s.size.toNat ++ (List.range (s.blockSize.toNat - 88)).map
                (fun i => s.rng (s.rngPos + i) % 256))) s.key ++
          ((List.range 16).map
            (fun i => s.rng (s.rngPos + (s.blockSize.toNat - 88) + i) % 256)) ++
          cbcEnc P s.key
            ((List.range 16).map
              (fun i => s.rng (s.rngPos + (s.blockSize.toNat - 88) + i) % 256))
            (toBE 8 s.size.toNat ++ (List.range (s.blockSize.toNat - 88)).map
              (fun i => s.rng (s.rngPos + i) % 256))).length
        = s.blockSize.toNat - 32 := by
      simpa [aesBlockSize] using henclen2
    unfold writeAt
    simp only [header0ASize]
    rw [List.take_left' hhalen]
    have hz : ∀ dd : List Nat, (32 : Nat) - ((magic ++ List.replicate 5 0
        ++ toBE 4 s.blockSize.toNat ++ List.replicate 12 0) ++ dd).length = 0 := by
      intro dd
      rw [List.length_append, hhalen]
      omega
    rw [hz]
    simp only [List.replicate_zero, List.nil_append, List.append_nil]
    rw [hencl]
    rw [show 32 + (s.blockSize.toNat - 32) = s.blockSize.toNat from by
      omega]
    rw [List.drop_append_eq_append_drop]
    rw [List.drop_of_length_le (by rw [hhalen]; omega), hhalen]
    rw [List.drop_drop]
    rw [show 32 + (s.blockSize.toNat - 32) = s.blockSize.toNat from by omega]
    simp [List.append_assoc]
  rw [hd2]

/-- Closing a clean-cache handle (cursor block-aligned after writing)
persists the header over the first block and resets the handle; the
data region of the disk is untouched. -/
theorem cfClose_loopState (P : Prims) (key : List Nat) (fb B : Int)
    (D : List Nat) (rng : Nat → Nat) (r : Nat) (sz : Nat)
    (hB : 128 ≤ B) (hal : B % 16 = 0) :
    ∃ encH : List Nat,
      cfClose P (loopState key fb B D rng r (sz : Int)) =
        (closedState key fb
          (magic ++ List.replicate 5 0 ++ toBE 4 B.toNat
            ++ List.replicate 12 0 ++ encH ++ D.drop B.toNat)
          rng (r + (B.toNat - 88) + 16), none) ∧
      encH.length = B.toNat - 32 ∧
      decrypt0 P encH key =
        .ok (toBE 8 sz ++ (List.range (B.toNat - 88)).map
          (fun i => rng (r + i) % 256)) := by
  obtain ⟨encH, hwh, hlen, hdec⟩ := cfWriteHeader_disk P
    (loopState key fb B D rng r (sz : Int)) rfl rfl hB hal rfl
  simp only [loopState, Int.toNat_natCast] at hwh hlen hdec
  refine ⟨encH, ?_, hlen, hdec⟩
  simp only [cfClose, loopState, Bool.false_eq_true, not_false_eq_true,
    if_true, if_false, reduceIte]
  rw [hwh]
  rfl

/-- Closing a handle with a dirty partial cache flushes the cache into
its block slot, persists the header and resets the handle. -/
theorem cfClose_loopStateC (P : Prims) (key : List Nat) (fb B : Int)
    (D : List Nat) (rng : Nat → Nat) (r : Nat) (K m sz : Nat)
    (cache : List Nat) (ci : Int)
    (hB : 128 ≤ B) (hal : B % 16 = 0) (hm : m < (B - 48).toNat)
    (hsz : (sz : Int) = (K : Int) * (B - 48) + (m : Int))
    (hcache : cache.length = (B - 48).toNat)
    (hD : D.length ≤ B.toNat + K * B.toNat) :
    ∃ encC encH : List Nat,
      cfClose P (loopStateC key fb B D rng r (sz : Int) cache ci) =
        (closedState key fb
          (magic ++ List.replicate 5 0 ++ toBE 4 B.toNat
            ++ List.replicate 12 0 ++ encH
            ++ (D ++ List.replicate (B.toNat + K * B.toNat - D.length) 0
              ++ encC).drop B.toNat)
          rng (r + 16 + (B.toNat - 88) + 16), none) ∧
      encC.length = B.toNat ∧
      decrypt0 P encC key = .ok cache ∧
      encH.length = B.toNat - 32 ∧
      decrypt0 P encH key =
        .ok (toBE 8 sz ++ (List.range (B.toNat - 88)).map
          (fun i => rng (r + 16 + i) % 256)) := by
  obtain ⟨encC, hfl, hClen, hCdec⟩ := cfFlush_loopStateC_at P key fb B D rng r
    K m cache ci hB hal hm hcache hD
  obtain ⟨encH, hwh, hHlen, hHdec⟩ := cfWriteHeader_disk P
    ({ loopStateC key fb B
        (D ++ List.replicate (B.toNat + K * B.toNat - D.length) 0 ++ encC)
        rng (r + 16) ((K : Int) * (B - 48) + (m : Int)) cache ci
      with plainBlockDirty := false }) rfl rfl hB hal rfl
  simp only [loopStateC, Option.getD_some] at hwh hHlen hHdec
  have hsztn : ((K : Int) * (B - 48) + (m : Int)).toNat = sz := by
    rw [← hsz, Int.toNat_natCast]
  rw [hsztn] at hHdec
  refine ⟨encC, encH, ?_, hClen, hCdec, hHlen, hHdec⟩
  simp only [cfClose, loopStateC, Bool.false_eq_true, not_false_eq_true,
    if_true, if_false, reduceIte]
  rw [hsz]
  simp only [loopStateC] at hfl
  rw [hfl]
  simp only [reduceIte]
  rw [hwh]
  rfl

/-- Opening a well-formed container loads the block size from
Header-A and the logical size from Header-B. -/
theorem cfOpen_container (P : Prims) (key : List Nat) (est2 : Int)
    (rng2 : Nat → Nat) (B : Int) (encH pad rest : List Nat) (sz : Nat)
    (hB : 128 ≤ B) (hB2 : B ≤ 65536) (hal : B % 16 = 0)
    (hHlen : encH.length = B.toNat - 32)
    (hHdec : decrypt0 P encH key = .ok (toBE 8 sz ++ pad))
    (hsz : sz < 2 ^ 64) :
    cfOpen P { newCryptFile key est2 rng2 with
        disk := some (magic ++ List.replicate 5 0 ++ toBE 4 B.toNat
          ++ List.replicate 12 0 ++ encH ++ rest) } =
      (rdState key (blockSizeForSize est2) B
        (magic ++ List.replicate 5 0 ++ toBE 4 B.toNat
          ++ List.replicate 12 0 ++ encH ++ rest) rng2 0 (sz : Int) 0,
       none) := by
  have hhalen : (magic ++ List.replicate 5 0 ++ toBE 4 B.toNat
      ++ List.replicate 12 0).length = 32 := by
    simp [magic, toBE]
  have hassoc : magic ++ List.replicate 5 0 ++ toBE 4 B.toNat
      ++ List.replicate 12 0 ++ encH ++ rest
      = (magic ++ List.replicate 5 0 ++ toBE 4 B.toNat
        ++ List.replicate 12 0) ++ (encH ++ rest) := by
    simp [List.append_assoc]
  have hdlen : (magic ++ List.replicate 5 0 ++ toBE 4 B.toNat
      ++ List.replicate 12 0 ++ encH ++ rest).length
      = 32 + ((B.toNat - 32) + rest.length) := by
    rw [hassoc, List.length_append, hhalen, List.length_append, hHlen]
  have hr1 : readAt (magic ++ List.replicate 5 0 ++ toBE 4 B.toNat
      ++ List.replicate 12 0 ++ encH ++ rest) 0 header0ASize
      = .ok (magic ++ List.replicate 5 0 ++ toBE 4 B.toNat
        ++ List.replicate 12 0) := by
    unfold readAt
    rw [if_pos (by simp only [header0ASize]; omega)]
    rw [List.drop_zero, hassoc]
    exact congrArg Except.ok
      (List.take_left' (show _ = header0ASize from hhalen))
  have htake11 : (magic ++ List.replicate 5 0 ++ toBE 4 B.toNat
      ++ List.replicate 12 0).take 11 = magic := by
    rw [List.append_assoc, List.append_assoc]
    exact List.take_left' (by simp [magic])
  have hdrop16 : (((magic ++ List.replicate 5 0 ++ toBE 4 B.toNat
      ++ List.replicate 12 0).drop 16).take 4) = toBE 4 B.toNat := by
    rw [show magic ++ List.replicate 5 0 ++ toBE 4 B.toNat
        ++ List.replicate 12 0
        = (magic ++ List.replicate 5 0)
          ++ (toBE 4 B.toNat ++ List.replicate 12 0) from by
      simp [List.append_assoc]]
    rw [List.drop_left' (by simp [magic])]
    exact List.take_left' (toBE_length 4 B.toNat)
  have h2564 : (256 : Nat) ^ 4 = 4294967296 := by norm_num
  have hbeU : ((beU (((magic ++ List.replicate 5 0 ++ toBE 4 B.toNat
      ++ List.replicate 12 0).drop 16).take 4) : Nat) : Int) = B := by
    rw [hdrop16, beU_toBE 4 B.toNat (by omega)]
    exact Int.toNat_of_nonneg (by omega)
  have hr2 : readAt (magic ++ List.replicate 5 0 ++ toBE 4 B.toNat
      ++ List.replicate 12 0 ++ encH ++ rest) header0ASize
      (B.toNat - header0ASize) = .ok encH := by
    unfold readAt
    rw [if_pos (by simp only [header0ASize]; omega)]
    rw [hassoc, List.drop_left' (show _ = header0ASize from hhalen)]
    exact congrArg Except.ok
      (List.take_left' (show encH.length = B.toNat - header0ASize from hHlen))
  have h2568 : (256 : Nat) ^ 8 = 18446744073709551616 := by norm_num
  have htake8 : (toBE 8 sz ++ pad).take 8 = toBE 8 sz :=
    List.take_left' (toBE_length 8 sz)
  have hbeU8 : beU ((toBE 8 sz ++ pad).take 8) = sz := by
    rw [htake8]
    exact beU_toBE 8 sz (by omega)
  simp only [cfOpen, newCryptFile, Bool.false_eq_true, if_false, reduceIte]
  rw [hr1]
  simp only [htake11, ne_eq, not_true_eq_false, if_false, ite_false, reduceIte]
  rw [hbeU]
  rw [if_neg (by simp only [minBlockSize]; omega)]
  rw [if_neg (by simp only [aesBlockSize]; omega)]
  rw [hr2]
  simp only [reduceIte]
  rw [hHdec]
  simp only [reduceIte]
  rw [hbeU8]
  simp only [rdState, hmacSize, aesBlockSize]
  rw [show B - ((32 : Nat) : Int) - ((16 : Nat) : Int) = B - 48 from by
    push_cast; ring]

/-- Loading the cache at a cursor `q` bytes into block `i` decodes
block `i` of the disk. -/
theorem cfReadBlock_rdState (P : Prims) (key : List Nat) (fb B : Int)
    (D : List Nat) (rng : Nat → Nat) (r : Nat) (sz : Int) (i q : Nat)
    (c : List Nat)
    (hB : 128 ≤ B) (hq : q < (B - 48).toNat)
    (hBO : BlockOK P key B D i c) :
    cfReadBlock P (rdState key fb B D rng r sz
        ((i * (B - 48).toNat + q : Nat) : Int)) =
      (rdStateC key fb B D rng r sz
        ((i * (B - 48).toNat + q : Nat) : Int) c, none) := by
  have hpint : ((B - 48).toNat : Int) = B - 48 := Int.toNat_of_nonneg (by omega)
  have hidx : ((i * (B - 48).toNat + q : Nat) : Int)
      = (i : Int) * (B - 48) + (q : Int) := by
    push_cast
    rw [hpint]
  obtain ⟨enc, hra, hdec⟩ := hBO
  unfold cfReadBlock rdState rdStateC
  rw [if_neg (by simp; omega)]
  simp only [Option.getD_some]
  rw [hidx, cursor_div_add i q (B - 48) (by omega) (by omega)]
  rw [blockOff_toNat B (by omega) i]
  rw [hra]
  simp only [reduceIte]
  rw [hdec]
  simp only [rdState, ← hidx]

/-- Reading with a buffer at least one block long from a block-aligned
cursor strictly inside the logical size delivers one whole block and
advances the cursor one block. -/
theorem cfRead_full (P : Prims) (key : List Nat) (fb B : Int)
    (D : List Nat) (rng : Nat → Nat) (r : Nat) (sz : Int) (i : Nat)
    (c : List Nat) (L : Nat)
    (hB : 128 ≤ B) (hBO : BlockOK P key B D i c)
    (hc : c.length = (B - 48).toNat) (hL : (B - 48).toNat ≤ L)
    (hnc : (((i + 1) * (B - 48).toNat : Nat) : Int) ≤ sz) :
    cfRead P (rdState key fb B D rng r sz
        ((i * (B - 48).toNat : Nat) : Int)) L =
      (rdState key fb B D rng r sz (((i + 1) * (B - 48).toNat : Nat) : Int),
       c, ((B - 48).toNat : Int), none) := by
  have hpint : ((B - 48).toNat : Int) = B - 48 := Int.toNat_of_nonneg (by omega)
  have hs : ((i * (B - 48).toNat : Nat) : Int) + ((B - 48).toNat : Int)
      = (((i + 1) * (B - 48).toNat : Nat) : Int) := by
    push_cast
    ring
  have hrb := cfReadBlock_rdState P key fb B D rng r sz i 0 c hB (by omega) hBO
  rw [Nat.add_zero] at hrb
  simp only [rdStateC, rdState] at hrb
  simp only [cfRead, rdState, Bool.false_eq_true, if_false, not_true,
    ite_false, reduceIte, Option.isNone_none]
  rw [hrb]
  simp only [reduceIte]
  simp only [cfReadCore, Option.getD_some, Int.toNat_zero, List.drop_zero]
  rw [List.take_of_length_le (by rw [hc]; exact hL)]
  rw [hc]
  simp only [zero_add]
  rw [if_pos (le_of_eq hpint.symm)]
  simp only [Bool.false_eq_true, if_false, reduceIte]
  have hclamp : ¬(((i * (B - 48).toNat : Nat) : Int)
      + ((B - 48).toNat : Int) > sz) := by
    rw [hs]
    exact not_lt.mpr hnc
  rw [if_neg hclamp]
  have hn0 : ¬(((B - 48).toNat : Int) ≤ 0) := by omega
  simp only []
  rw [if_neg hn0]
  rw [hs]

/-- Reading the final partial block: the whole cached block is copied
but the count is clamped to the bytes before the logical size and the
cursor lands exactly on the logical size. -/
theorem cfRead_last (P : Prims) (key : List Nat) (fb B : Int)
    (D : List Nat) (rng : Nat → Nat) (r : Nat) (K m : Nat)
    (c : List Nat) (L : Nat)
    (hB : 128 ≤ B) (hBO : BlockOK P key B D K c)
    (hc : c.length = (B - 48).toNat) (hL : (B - 48).toNat ≤ L)
    (hm : m < (B - 48).toNat) (hm0 : 0 < m) :
    cfRead P (rdState key fb B D rng r
        ((K * (B - 48).toNat + m : Nat) : Int)
        ((K * (B - 48).toNat : Nat) : Int)) L =
      (rdState key fb B D rng r ((K * (B - 48).toNat + m : Nat) : Int)
        ((K * (B - 48).toNat + m : Nat) : Int),
       c, (m : Int), none) := by
  have hpint : ((B - 48).toNat : Int) = B - 48 := Int.toNat_of_nonneg (by omega)
  have hrb := cfReadBlock_rdState P key fb B D rng r
    ((K * (B - 48).toNat + m : Nat) : Int) K 0 c hB (by omega) hBO
  rw [Nat.add_zero] at hrb
  simp only [rdStateC, rdState] at hrb
  simp only [cfRead, rdState, Bool.false_eq_true, if_false, not_true,
    ite_false, reduceIte, Option.isNone_none]
  rw [hrb]
  simp only [reduceIte]
  simp only [cfReadCore, Option.getD_some, Int.toNat_zero, List.drop_zero]
  rw [List.take_of_length_le (by rw [hc]; exact hL)]
  rw [hc]
  simp only [zero_add]
  rw [if_pos (le_of_eq hpint.symm)]
  simp only [Bool.false_eq_true, if_false, reduceIte]
  have hclamp : ((K * (B - 48).toNat : Nat) : Int) + ((B - 48).toNat : Int)
      > ((K * (B - 48).toNat + m : Nat) : Int) := by
    push_cast
    omega
  rw [if_pos hclamp]
  simp only []
  have hneq : ((B - 48).toNat : Int)
      - (((K * (B - 48).toNat : Nat) : Int) + ((B - 48).toNat : Int)
        - ((K * (B - 48).toNat + m : Nat) : Int)) = (m : Int) := by
    push_cast
    ring
  rw [hneq]
  rw [if_neg (by omega : ¬((m : Nat) : Int) ≤ 0)]

/-- Reading with the cursor already at the logical size, when the
terminal block still exists on disk, copies the block but clamps the
count to zero and reports end-of-stream without moving the cursor. -/
theorem cfRead_eof_end (P : Prims) (key : List Nat) (fb B : Int)
    (D : List Nat) (rng : Nat → Nat) (r : Nat) (K m : Nat)
    (c : List Nat) (L : Nat)
    (hB : 128 ≤ B) (hBO : BlockOK P key B D K c)
    (hc : c.length = (B - 48).toNat) (hL : (B - 48).toNat ≤ L)
    (hm : m < (B - 48).toNat) :
    cfRead P (rdState key fb B D rng r
        ((K * (B - 48).toNat + m : Nat) : Int)
        ((K * (B - 48).toNat + m : Nat) : Int)) L =
      (rdState key fb B D rng r ((K * (B - 48).toNat + m : Nat) : Int)
        ((K * (B - 48).toNat + m : Nat) : Int),
       c, 0, some .eof) := by
  have hpint : ((B - 48).toNat : Int) = B - 48 := Int.toNat_of_nonneg (by omega)
  have hrb := cfReadBlock_rdState P key fb B D rng r
    ((K * (B - 48).toNat + m : Nat) : Int) K m c hB hm hBO
  simp only [rdStateC, rdState] at hrb
  simp only [cfRead, rdState, Bool.false_eq_true, if_false, not_true,
    ite_false, reduceIte, Option.isNone_none]
  rw [hrb]
  simp only [reduceIte]
  simp only [cfReadCore, Option.getD_some, Int.toNat_zero, List.drop_zero]
  rw [List.take_of_length_le (by rw [hc]; exact hL)]
  rw [hc]
  simp only [zero_add]
  rw [if_pos (le_of_eq hpint.symm)]
  simp only [Bool.false_eq_true, if_false, reduceIte]
  have hclamp : ((K * (B - 48).toNat + m : Nat) : Int)
      + ((B - 48).toNat : Int) > ((K * (B - 48).toNat + m : Nat) : Int) := by
    omega
  rw [if_pos hclamp]
  simp only []
  have hneq : ((B - 48).toNat : Int)
      - (((K * (B - 48).toNat + m : Nat) : Int) + ((B - 48).toNat : Int)
        - ((K * (B - 48).toNat + m : Nat) : Int)) = 0 := by
    ring
  rw [hneq]
  rw [if_pos (le_refl (0 : Int))]

/-- Reading when the cursor's block does not exist on disk reports
end-of-stream and leaves the handle unchanged. -/
theorem cfRead_eof_missing (P : Prims) (key : List Nat) (fb B : Int)
    (D : List Nat) (rng : Nat → Nat) (r : Nat) (sz : Int) (i q : Nat)
    (L : Nat)
    (hB : 128 ≤ B) (hq : q < (B - 48).toNat)
    (hD : D.length < B.toNat + i * B.toNat + B.toNat) :
    cfRead P (rdState key fb B D rng r sz
        ((i * (B - 48).toNat + q : Nat) : Int)) L =
      (rdState key fb B D rng r sz ((i * (B - 48).toNat + q : Nat) : Int),
       [], 0, some .eof) := by
  have hpint : ((B - 48).toNat : Int) = B - 48 := Int.toNat_of_nonneg (by omega)
  have hidx : ((i * (B - 48).toNat + q : Nat) : Int)
      = (i : Int) * (B - 48) + (q : Int) := by
    push_cast
    rw [hpint]
  have hrb : cfReadBlock P (rdState key fb B D rng r sz
      ((i * (B - 48).toNat + q : Nat) : Int)) =
      (rdState key fb B D rng r sz ((i * (B - 48).toNat + q : Nat) : Int),
       some Err.eof) := by
    unfold cfReadBlock rdState
    rw [if_neg (by simp; omega)]
    simp only [Option.getD_some]
    rw [hidx, cursor_div_add i q (B - 48) (by omega) (by omega)]
    rw [blockOff_toNat B (by omega) i]
    rw [show readAt D (B.toNat + i * B.toNat) B.toNat = .error .eof from by
      unfold readAt
      rw [if_neg (by omega)]]
  simp only [rdState] at hrb
  simp only [cfRead, rdState, Bool.false_eq_true, if_false, not_true,
    ite_false, reduceIte, Option.isNone_none]
  rw [hrb]

set_option maxRecDepth 8000 in
/-- Driving Read to end-of-stream over a container whose blocks hold
the chunks of `b` returns exactly the bytes of `b` after the cursor
and then a clean end-of-stream. -/
theorem readFull_container (P : Prims) (key : List Nat) (fb B : Int)
    (D : List Nat) (rng : Nat → Nat) (r : Nat) (b : List Nat) (L : Nat)
    (K m : Nat)
    (hB : 128 ≤ B) (hL : (B - 48).toNat ≤ L)
    (hKm : b.length = K * (B - 48).toNat + m) (hmp : m < (B - 48).toNat)
    (hfull : ∀ j, j < K →
      BlockOK P key B D j ((b.drop (j * (B - 48).toNat)).take (B - 48).toNat))
    (hpart : m ≠ 0 → ∃ ctail,
      BlockOK P key B D K (b.drop (K * (B - 48).toNat) ++ ctail) ∧
      (b.drop (K * (B - 48).toNat) ++ ctail).length = (B - 48).toNat)
    (hDlen : m = 0 → D.length < B.toNat + K * B.toNat + B.toNat) :
    ∀ (fuel i : Nat) (acc : List Nat),
      i ≤ K →
      K - i + 2 ≤ fuel →
      ∃ s' : CFState,
        readFull P fuel (rdState key fb B D rng r
          ((K * (B - 48).toNat + m : Nat) : Int)
          ((i * (B - 48).toNat : Nat) : Int)) L acc
          = (s', acc ++ b.drop (i * (B - 48).toNat), none) := by
  have hp : 0 < (B - 48).toNat := by omega
  intro fuel
  induction fuel with
  | zero =>
    intro i acc hi hfuel
    omega
  | succ fuel ih =>
    intro i acc hi hfuel
    by_cases hiK : i < K
    · -- a whole block remains: one call, then recurse
      have h1 : (i + 1) * (B - 48).toNat ≤ K * (B - 48).toNat :=
        Nat.mul_le_mul_right _ (by omega)
      have h3 : (i + 1) * (B - 48).toNat = i * (B - 48).toNat + (B - 48).toNat := by
        ring
      have hcontent : ((b.drop (i * (B - 48).toNat)).take (B - 48).toNat).length
          = (B - 48).toNat := by
        rw [List.length_take, List.length_drop]
        omega
      have hnc : (((i + 1) * (B - 48).toNat : Nat) : Int)
          ≤ ((K * (B - 48).toNat + m : Nat) : Int) :=
        Nat.cast_le.mpr (by omega)
      have hfR := cfRead_full P key fb B D rng r
        ((K * (B - 48).toNat + m : Nat) : Int) i
        ((b.drop (i * (B - 48).toNat)).take (B - 48).toNat) L hB
        (hfull i hiK) hcontent hL hnc
      simp only [readFull]
      rw [hfR]
      simp only [Int.toNat_natCast]
      rw [List.take_of_length_le (le_of_eq hcontent)]
      obtain ⟨s', hs'⟩ := ih (i + 1)
        (acc ++ (b.drop (i * (B - 48).toNat)).take (B - 48).toNat)
        (by omega) (by omega)
      refine ⟨s', ?_⟩
      rw [hs']
      rw [List.append_assoc]
      rw [show (i + 1) * (B - 48).toNat
        = i * (B - 48).toNat + (B - 48).toNat from by ring]
      rw [← List.drop_drop]
      rw [List.take_append_drop]
    · -- at the final block
      have hiK' : i = K := by omega
      subst hiK'
      by_cases hm : m = 0
      · -- no partial block: the block read fails with EOF at once
        subst hm
        simp only [Nat.add_zero]
        have hR4 := cfRead_eof_missing P key fb B D rng r
          ((i * (B - 48).toNat : Nat) : Int) i 0 L hB hp (hDlen rfl)
        rw [Nat.add_zero] at hR4
        rw [List.drop_of_length_le (by omega), List.append_nil]
        simp only [readFull]
        rw [hR4]
        exact ⟨_, rfl⟩
      · -- partial block: one clamped read, then a zero-count EOF read
        obtain ⟨ctail, hKBO, hKlen⟩ := hpart hm
        have hdroplen : (b.drop (i * (B - 48).toNat)).length = m := by
          rw [List.length_drop]
          omega
        have hR2 := cfRead_last P key fb B D rng r i m
          (b.drop (i * (B - 48).toNat) ++ ctail) L hB hKBO hKlen hL hmp
          (Nat.pos_of_ne_zero hm)
        simp only [readFull]
        rw [hR2]
        simp only [Int.toNat_natCast]
        rw [List.take_left' hdroplen]
        cases fuel with
        | zero => omega
        | succ fuel =>
          have hR3 := cfRead_eof_end P key fb B D rng r i m
            (b.drop (i * (B - 48).toNat) ++ ctail) L hB hKBO hKlen hL hmp
          simp only [readFull]
          rw [hR3]
          exact ⟨_, rfl⟩

/-- A block is intact in any disk image with the same length and the
same contents from the first block boundary on. -/
theorem BlockOK_suffix (P : Prims) (key : List Nat) (B : Int)
    (D1 D2 : List Nat) (j : Nat) (c : List Nat)
    (hd : D1.drop B.toNat = D2.drop B.toNat) (hl : D1.length = D2.length)
    (h : BlockOK P key B D1 j c) : BlockOK P key B D2 j c := by
  obtain ⟨enc, hra, hdec⟩ := h
  refine ⟨enc, ?_, hdec⟩
  have h1 : D1.drop (B.toNat + j * B.toNat) = D2.drop (B.toNat + j * B.toNat) := by
    rw [← List.drop_drop, hd, List.drop_drop]
  unfold readAt at hra ⊢
  rw [← hl, ← h1]
  exact hra

/-- The first Read on a freshly constructed handle performs the lazy
open; afterwards the run is the run from the opened handle. -/
theorem readFull_open_step (P : Prims) (s t : CFState) (L : Nat)
    (acc : List Nat) (fuel : Nat)
    (hun : s.unknownState = false) (hop : s.fileOpen = false)
    (hto : cfOpen P s = (t, none))
    (htun : t.unknownState = false) (htop : t.fileOpen = true) :
    readFull P (fuel + 1) s L acc = readFull P (fuel + 1) t L acc := by
  have hread : cfRead P s L = cfRead P t L := by
    simp only [cfRead, hun, hop, hto, htun, htop, Bool.false_eq_true,
      not_false_eq_true, not_true, if_true, if_false, ite_false, ite_true,
      reduceIte]
  simp only [readFull]
  rw [hread]

set_option maxRecDepth 8000 in
/-- A well-formed container reports the logical size recorded in its
header and reads back exactly the bytes of `b` laid out in its
blocks. -/
theorem container_spec (P : Prims) (key : List Nat) (est2 : Int)
    (rng2 : Nat → Nat) (B : Int) (encH pad rest : List Nat) (b : List Nat)
    (L : Nat) (K m : Nat)
    (hB : 128 ≤ B) (hB2 : B ≤ 65536) (hal : B % 16 = 0)
    (hHlen : encH.length = B.toNat - 32)
    (hHdec : decrypt0 P encH key = .ok (toBE 8 b.length ++ pad))
    (hszlt : b.length < 2 ^ 64)
    (hKm : b.length = K * (B - 48).toNat + m) (hmp : m < (B - 48).toNat)
    (hL : (B - 48).toNat ≤ L)
    (hfull : ∀ j, j < K →
      BlockOK P key B (magic ++ List.replicate 5 0 ++ toBE 4 B.toNat
        ++ List.replicate 12 0 ++ encH ++ rest) j
        ((b.drop (j * (B - 48).toNat)).take (B - 48).toNat))
    (hpart : m ≠ 0 → ∃ ctail,
      BlockOK P key B (magic ++ List.replicate 5 0 ++ toBE 4 B.toNat
        ++ List.replicate 12 0 ++ encH ++ rest) K
        (b.drop (K * (B - 48).toNat) ++ ctail) ∧
      (b.drop (K * (B - 48).toNat) ++ ctail).length = (B - 48).toNat)
    (hDlen : m = 0 →
      (magic ++ List.replicate 5 0 ++ toBE 4 B.toNat
        ++ List.replicate 12 0 ++ encH ++ rest).length
        < B.toNat + K * B.toNat + B.toNat) :
    (cfSize P { newCryptFile key est2 rng2 with
        disk := some (magic ++ List.replicate 5 0 ++ toBE 4 B.toNat
          ++ List.replicate 12 0 ++ encH ++ rest) }).2 =
      ((b.length : Int), none) ∧
    ∃ sr : CFState,
      readFull P (K + 2) { newCryptFile key est2 rng2 with
        disk := some (magic ++ List.replicate 5 0 ++ toBE 4 B.toNat
          ++ List.replicate 12 0 ++ encH ++ rest) } L []
        = (sr, b, none) := by
  have hopen := cfOpen_container P key est2 rng2 B encH pad rest b.length
    hB hB2 hal hHlen hHdec hszlt
  simp only [newCryptFile] at hopen
  constructor
  · simp only [cfSize, newCryptFile, Bool.false_eq_true, if_false, not_false_eq_true,
      if_true, reduceIte]
    rw [hopen]
    simp only [rdState]
  · have hstep := readFull_open_step P
      { newCryptFile key est2 rng2 with
        disk := some (magic ++ List.replicate 5 0 ++ toBE 4 B.toNat
          ++ List.replicate 12 0 ++ encH ++ rest) }
      (rdState key (blockSizeForSize est2) B
        (magic ++ List.replicate 5 0 ++ toBE 4 B.toNat
          ++ List.replicate 12 0 ++ encH ++ rest) rng2 0 (b.length : Int) 0)
      L [] (K + 1) rfl rfl hopen rfl rfl
    rw [show K + 1 + 1 = K + 2 from rfl] at hstep
    simp only [newCryptFile] at hstep ⊢
    rw [hstep]
    obtain ⟨sr, hsr⟩ := readFull_container P key (blockSizeForSize est2) B
      (magic ++ List.replicate 5 0 ++ toBE 4 B.toNat
        ++ List.replicate 12 0 ++ encH ++ rest) rng2 0 b L K m hB hL hKm hmp
      hfull hpart hDlen (K + 2) 0 [] (by omega) (by omega)
    refine ⟨sr, ?_⟩
    rw [show ((b.length : Nat) : Int) = ((K * (B - 48).toNat + m : Nat) : Int)
      from by rw [← hKm]]
    rw [show (0 : Int) = ((0 * (B - 48).toNat : Nat) : Int) from by simp]
    rw [hsr]
    simp

/-- Writing on a freshly constructed handle creates the backing file
(fixing the block size from the estimate) and enters the copy loop on
an empty disk. -/
theorem cfWrite_fresh (P : Prims) (key b : List Nat) (est : Int)
    (rng : Nat → Nat) :
    cfWrite P (newCryptFile key est rng) b =
      cfWriteLoop P (b.length + 1)
        (loopState key (blockSizeForSize est) (blockSizeForSize est) [] rng 0 0)
        b 0 := by
  obtain ⟨h1, h2, h3⟩ := blockSizeForSize_range est
  simp only [cfWrite, newCryptFile, cfOpen, cfCreate, Bool.false_eq_true,
    if_false, not_false_eq_true, if_true, ite_false, ite_true, reduceIte]
  rw [if_neg (by omega : ¬(blockSizeForSize est = 0))]
  rw [show blockSizeForSize est - ((hmacSize : Nat) : Int)
      - ((aesBlockSize : Nat) : Int) = blockSizeForSize est - 48 from by
    simp only [hmacSize, aesBlockSize]
    push_cast
    ring]
  rfl

set_option maxRecDepth 8000 in
/-- C1: for every byte sequence written to a freshly created
container, after closing the handle, constructing a new handle on the
same disk image with the same key, and reading from position 0 to
end-of-stream, the bytes read equal the written sequence exactly, and
the size query on the reopened handle returns the sequence's
length. -/
theorem stream_roundtrip (P : Prims) (key b : List Nat) (est est2 : Int)
    (rng rng2 : Nat → Nat) (L : Nat)
    (hlen : b.length < 2 ^ 63)
    (hL : (blockSizeForSize est - 48).toNat ≤ L) :
    ∃ sw sc : CFState,
      cfWrite P (newCryptFile key est rng) b = (sw, (b.length : Int), none) ∧
      cfClose P sw = (sc, none) ∧
      (cfSize P { newCryptFile key est2 rng2 with disk := sc.disk }).2 =
        ((b.length : Int), none) ∧
      ∃ sr : CFState,
        readFull P (b.length / (blockSizeForSize est - 48).toNat + 2)
          { newCryptFile key est2 rng2 with disk := sc.disk } L []
          = (sr, b, none) := by
  have hwf := cfWrite_fresh P key b est rng
  obtain ⟨h1, h2, h3⟩ := blockSizeForSize_range est
  generalize hBdef : blockSizeForSize est = B at h1 h2 h3 hL hwf ⊢
  have hp : 0 < (B - 48).toNat := by omega
  have hpint : ((B - 48).toNat : Int) = B - 48 := Int.toNat_of_nonneg (by omega)
  have hdm : b.length = b.length / (B - 48).toNat * (B - 48).toNat
      + b.length % (B - 48).toNat := by
    have h := Nat.div_add_mod b.length (B - 48).toNat
    rw [Nat.mul_comm] at h
    omega
  obtain ⟨D', r', tail, ext, hloop, hext, hk0, hklen, hblocks, hcachelen⟩ :=
    cfWriteLoop_fresh P key B B h1 h3 (b.length + 1) b 0 [] rng 0 0
      (by omega) (by simp)
  simp only [Nat.cast_zero, zero_mul, zero_add,
    Nat.zero_add] at hloop hk0 hklen hblocks
  rw [hloop] at hwf
  have hszlt : b.length < 2 ^ 64 := by omega
  by_cases hm : b.length % (B - 48).toNat = 0
  · -- aligned final cursor: Close only rewrites the header
    rw [if_pos hm] at hwf
    obtain ⟨encH, hclose, hHlen, hHdec⟩ :=
      cfClose_loopState P key B B D' rng r' b.length h1 h3
    have hXlen : (magic ++ List.replicate 5 0 ++ toBE 4 B.toNat
        ++ List.replicate 12 0 ++ encH).length = B.toNat := by
      simp only [List.length_append, List.length_replicate, toBE_length, hHlen]
      rw [show magic.length = 11 from rfl]
      omega
    have hdropc : (magic ++ List.replicate 5 0 ++ toBE 4 B.toNat
        ++ List.replicate 12 0 ++ encH ++ D'.drop B.toNat).drop B.toNat
        = D'.drop B.toNat := List.drop_left' hXlen
    have hfullC : ∀ j, j < b.length / (B - 48).toNat →
        BlockOK P key B (magic ++ List.replicate 5 0 ++ toBE 4 B.toNat
          ++ List.replicate 12 0 ++ encH ++ D'.drop B.toNat) j
          ((b.drop (j * (B - 48).toNat)).take (B - 48).toNat) := by
      intro j hj
      have hDlen' := hklen (by omega)
      refine BlockOK_suffix P key B D' _ j _ hdropc.symm ?_ (hblocks j hj)
      rw [List.length_append, hXlen, List.length_drop, hDlen']
      omega
    have hcont := container_spec P key est2 rng2 B encH
      ((List.range (B.toNat - 88)).map (fun i => rng (r' + i) % 256))
      (D'.drop B.toNat) b L (b.length / (B - 48).toNat) 0
      h1 h2 h3 hHlen hHdec hszlt (by omega) hp hL hfullC
      (fun h => absurd rfl h)
      (by
        intro _
        rw [List.length_append, hXlen, List.length_drop]
        rcases Nat.eq_zero_or_pos (b.length / (B - 48).toNat) with hK0 | hKpos
        · rw [hk0 hK0]
          simp only [List.length_nil]
          omega
        · rw [hklen hKpos]
          omega)
    refine ⟨_, _, hwf, hclose, ?_, ?_⟩
    · simp only [closedState]
      exact hcont.1
    · simp only [closedState]
      exact hcont.2
  · -- a dirty partial block remains: Close flushes it, then the header
    rw [if_neg hm] at hwf
    have hDb : D'.length ≤ B.toNat + (b.length / (B - 48).toNat) * B.toNat := by
      rcases Nat.eq_zero_or_pos (b.length / (B - 48).toNat) with hK0 | hKpos
      · rw [hk0 hK0]
        simp
      · rw [hklen hKpos]
    have hsz2 : ((b.length : Nat) : Int)
        = ((b.length / (B - 48).toNat : Nat) : Int) * (B - 48)
          + ((b.length % (B - 48).toNat : Nat) : Int) := by
      rw [← hpint]
      exact_mod_cast hdm
    obtain ⟨encC, encH, hclose, hClen, hCdec, hHlen, hHdec⟩ :=
      cfClose_loopStateC P key B B D' rng r' (b.length / (B - 48).toNat)
        (b.length % (B - 48).toNat) b.length
        (b.drop (b.length / (B - 48).toNat * (B - 48).toNat) ++ tail)
        ((b.length % (B - 48).toNat : Nat) : Int)
        h1 h3 (Nat.mod_lt _ hp) hsz2 hcachelen hDb
    have hD2len : (D' ++ List.replicate (B.toNat
        + b.length / (B - 48).toNat * B.toNat - D'.length) 0 ++ encC).length
        = B.toNat + b.length / (B - 48).toNat * B.toNat + B.toNat := by
      simp only [List.length_append, List.length_replicate, hClen]
      omega
    have hXlen : (magic ++ List.replicate 5 0 ++ toBE 4 B.toNat
        ++ List.replicate 12 0 ++ encH).length = B.toNat := by
      simp only [List.length_append, List.length_replicate, toBE_length, hHlen]
      rw [show magic.length = 11 from rfl]
      omega
    have hdropc : (magic ++ List.replicate 5 0 ++ toBE 4 B.toNat
        ++ List.replicate 12 0 ++ encH
        ++ (D' ++ List.replicate (B.toNat
          + b.length / (B - 48).toNat * B.toNat - D'.length) 0
          ++ encC).drop B.toNat).drop B.toNat
        = (D' ++ List.replicate (B.toNat
          + b.length / (B - 48).toNat * B.toNat - D'.length) 0
          ++ encC).drop B.toNat := List.drop_left' hXlen
    have hlenc : (magic ++ List.replicate 5 0 ++ toBE 4 B.toNat
        ++ List.replicate 12 0 ++ encH
        ++ (D' ++ List.replicate (B.toNat
          + b.length / (B - 48).toNat * B.toNat - D'.length) 0
          ++ encC).drop B.toNat).length
        = (D' ++ List.replicate (B.toNat
          + b.length / (B - 48).toNat * B.toNat - D'.length) 0
          ++ encC).length := by
      rw [List.length_append, hXlen, List.length_drop, hD2len]
      omega
    have hfullC : ∀ j, j < b.length / (B - 48).toNat →
        BlockOK P key B (magic ++ List.replicate 5 0 ++ toBE 4 B.toNat
          ++ List.replicate 12 0 ++ encH
          ++ (D' ++ List.replicate (B.toNat
            + b.length / (B - 48).toNat * B.toNat - D'.length) 0
            ++ encC).drop B.toNat) j
          ((b.drop (j * (B - 48).toNat)).take (B - 48).toNat) := by
      intro j hj
      refine BlockOK_suffix P key B _ _ j _ hdropc.symm hlenc.symm ?_
      rw [show D' ++ List.replicate (B.toNat
          + b.length / (B - 48).toNat * B.toNat - D'.length) 0 ++ encC
        = D' ++ (List.replicate (B.toNat
          + b.length / (B - 48).toNat * B.toNat - D'.length) 0 ++ encC) from
        by simp [List.append_assoc]]
      exact BlockOK_ext P key B D' _ j _ (hblocks j hj)
    have hpartC : b.length % (B - 48).toNat ≠ 0 → ∃ ctail,
        BlockOK P key B (magic ++ List.replicate 5 0 ++ toBE 4 B.toNat
          ++ List.replicate 12 0 ++ encH
          ++ (D' ++ List.replicate (B.toNat
            + b.length / (B - 48).toNat * B.toNat - D'.length) 0
            ++ encC).drop B.toNat)
          (b.length / (B - 48).toNat)
          (b.drop (b.length / (B - 48).toNat * (B - 48).toNat) ++ ctail) ∧
        (b.drop (b.length / (B - 48).toNat * (B - 48).toNat) ++ ctail).length
          = (B - 48).toNat := by
      intro _
      refine ⟨tail, ?_, hcachelen⟩
      refine BlockOK_suffix P key B _ _ _ _ hdropc.symm hlenc.symm ?_
      exact BlockOK_new P key B
        (D' ++ List.replicate (B.toNat
          + b.length / (B - 48).toNat * B.toNat - D'.length) 0) encC _
        (b.length / (B - 48).toNat)
        (by simp only [List.length_append, List.length_replicate]; omega)
        hClen hCdec
    have hcont := container_spec P key est2 rng2 B encH
      ((List.range (B.toNat - 88)).map (fun i => rng (r' + 16 + i) % 256))
      ((D' ++ List.replicate (B.toNat
        + b.length / (B - 48).toNat * B.toNat - D'.length) 0
        ++ encC).drop B.toNat) b L
      (b.length / (B - 48).toNat) (b.length % (B - 48).toNat)
      h1 h2 h3 hHlen hHdec hszlt hdm (Nat.mod_lt _ hp) hL hfullC hpartC
      (fun h => absurd h hm)
    refine ⟨_, _, hwf, hclose, ?_, ?_⟩
    · simp only [closedState]
      exact hcont.1
    · simp only [closedState]
      exact hcont.2

set_option maxRecDepth 100000 in
/-- Witness for C1: a five-byte payload round-trips through a concrete
128-byte-block container under `idPrims`. -/
theorem stream_roundtrip_witness :
    ([1, 2, 3, 4, 5] : List Nat).length < 2 ^ 63 ∧
    (blockSizeForSize 0 - 48).toNat ≤ 80 ∧
    (∃ sw sc : CFState,
      cfWrite idPrims (newCryptFile (List.replicate 32 7) 0
          (fun i => (i * 37 + 11) % 251)) [1, 2, 3, 4, 5]
        = (sw, (([1, 2, 3, 4, 5] : List Nat).length : Int), none) ∧
      cfClose idPrims sw = (sc, none) ∧
      (cfSize idPrims { newCryptFile (List.replicate 32 7) 0
          (fun i => i % 256) with disk := sc.disk }).2 =
        ((([1, 2, 3, 4, 5] : List Nat).length : Int), none) ∧
      ∃ sr : CFState,
        readFull idPrims (([1, 2, 3, 4, 5] : List Nat).length
            / (blockSizeForSize 0 - 48).toNat + 2)
          { newCryptFile (List.replicate 32 7) 0
            (fun i => i % 256) with disk := sc.disk } 80 []
          = (sr, [1, 2, 3, 4, 5], none)) :=
  ⟨by decide, by decide,
   stream_roundtrip idPrims (List.replicate 32 7) [1, 2, 3, 4, 5] 0 0
     (fun i => (i * 37 + 11) % 251) (fun i => i % 256) 80
     (by decide) (by decide)⟩

/-- A Read on a closed handle first performs the lazy open. -/
theorem cfRead_lazyOpen (P : Prims) (s t : CFState) (L : Nat)
    (hun : s.unknownState = false) (hop : s.fileOpen = false)
    (hto : cfOpen P s = (t, none))
    (htun : t.unknownState = false) (htop : t.fileOpen = true) :
    cfRead P s L = cfRead P t L := by
  simp only [cfRead, hun, hop, hto, htun, htop, Bool.false_eq_true,
    not_false_eq_true, not_true, if_true, if_false, ite_false, ite_true,
    reduceIte]

/-- Any read on an opened container of logical size zero copies at
most one block into the scratch buffer but reports zero bytes and
end-of-stream. -/
theorem cfRead_empty (P : Prims) (key : List Nat) (fb B : Int)
    (D : List Nat) (rng : Nat → Nat) (r : Nat) (c : List Nat) (L : Nat)
    (hB : 128 ≤ B) (hBO : BlockOK P key B D 0 c)
    (hc : c.length = (B - 48).toNat) :
    ∃ s' : CFState,
      cfRead P (rdState key fb B D rng r 0 0) L
        = (s', c.take L, 0, some .eof) := by
  have hpint : ((B - 48).toNat : Int) = B - 48 := Int.toNat_of_nonneg (by omega)
  have hrb := cfReadBlock_rdState P key fb B D rng r 0 0 0 c hB (by omega) hBO
  have h00 : ((0 * (B - 48).toNat + 0 : Nat) : Int) = 0 := by simp
  rw [h00] at hrb
  simp only [rdStateC, rdState] at hrb
  simp only [cfRead, rdState, Bool.false_eq_true, if_false, not_true,
    ite_false, reduceIte, Option.isNone_none]
  rw [hrb]
  simp only [reduceIte]
  simp only [cfReadCore, Option.getD_some, Int.toNat_zero, List.drop_zero]
  by_cases hLp : (B - 48).toNat ≤ L
  · rw [List.take_of_length_le (by omega)]
    rw [hc]
    simp only [zero_add]
    rw [if_pos (le_of_eq hpint.symm)]
    simp only [Bool.false_eq_true, if_false, reduceIte]
    rw [if_pos (by omega : (0 : Int) + ((B - 48).toNat : Int) > 0)]
    simp only []
    have hz : ((B - 48).toNat : Int) - ((0 : Int) + ((B - 48).toNat : Int) - 0)
        = 0 := by ring
    rw [hz]
    rw [if_pos (le_refl (0 : Int))]
    exact ⟨_, rfl⟩
  · have hlt : (c.take L).length = L := by
      rw [List.length_take]
      omega
    rw [show ((c.take L).length : Int) = (L : Int) from by rw [hlt]]
    simp only [zero_add]
    rw [if_neg (by omega : ¬((L : Int) ≥ B - 48))]
    simp only [reduceIte]
    rcases Nat.eq_zero_or_pos L with hL0 | hL0
    · subst hL0
      simp only [Nat.cast_zero, add_zero]
      rw [if_neg (by omega : ¬((0 : Int) > 0))]
      simp only []
      rw [if_pos (le_refl (0 : Int))]
      exact ⟨_, rfl⟩
    · rw [if_pos (by omega : (0 : Int) + (L : Int) > 0)]
      simp only []
      have hz2 : ((L : Nat) : Int) - ((0 : Int) + ((L : Nat) : Int) - 0)
          = 0 := by ring
      rw [hz2]
      rw [if_pos (le_refl (0 : Int))]
      exact ⟨_, rfl⟩

/-- Writing exactly one byte to a fresh handle leaves a dirty one-byte
cache (topped up with entropy) and no disk blocks yet. -/
theorem cfWrite_single (P : Prims) (key : List Nat) (est : Int)
    (rng : Nat → Nat) (x : Nat) :
    ∃ (r' : Nat) (cache : List Nat),
      cfWrite P (newCryptFile key est rng) [x]
        = (loopStateC key (blockSizeForSize est) (blockSizeForSize est) []
            rng r' 1 cache 1, 1, none) ∧
      cache.length = (blockSizeForSize est - 48).toNat := by
  have hwf := cfWrite_fresh P key [x] est rng
  obtain ⟨h1, h2, h3⟩ := blockSizeForSize_range est
  have hp1 : 1 < (blockSizeForSize est - 48).toNat := by omega
  obtain ⟨D', r', tail, ext, hloop, hext, hk0, hklen, hblocks, hcachelen⟩ :=
    cfWriteLoop_fresh P key (blockSizeForSize est) (blockSizeForSize est)
      h1 h3 ([x].length + 1) [x] 0 [] rng 0 0 (by simp) (by simp)
  simp only [Nat.cast_zero, Nat.cast_one, zero_mul, zero_add,
    List.length_cons, List.length_nil, Nat.zero_add] at hloop hk0 hcachelen hwf
  rw [Nat.mod_eq_of_lt hp1] at hloop
  rw [Nat.div_eq_of_lt hp1] at hloop hk0
  simp only [Nat.zero_mul, List.drop_zero, reduceIte] at hloop
  rw [hk0 rfl] at hloop
  rw [hloop] at hwf
  rw [Nat.div_eq_of_lt hp1, Nat.zero_mul, List.drop_zero] at hcachelen
  exact ⟨r', [x] ++ tail, hwf, hcachelen⟩

set_option maxRecDepth 8000 in
/-- C8: a container produced by WriteAsEmpty reports logical size 0
and every read returns zero bytes with end-of-stream, yet its on-disk
footprint after Close — header block plus exactly one data block — is
identical to that of a minimal non-empty container holding one
byte. -/
theorem writeAsEmpty_opaque (P : Prims) (key : List Nat) (est : Int)
    (rngE rngN rng2 : Nat → Nat) (x : Nat) :
    ∃ (se sce swn scn : CFState) (DE DN : List Nat),
      cfWriteAsEmpty P (newCryptFile key est rngE) = (se, none) ∧
      cfClose P se = (sce, none) ∧
      sce.disk = some DE ∧
      (cfSize P { newCryptFile key est rng2 with disk := some DE }).2 =
        (0, none) ∧
      (∀ L : Nat, ∃ (s' : CFState) (out : List Nat),
        cfRead P { newCryptFile key est rng2 with disk := some DE } L
          = (s', out, 0, some .eof)) ∧
      cfWrite P (newCryptFile key est rngN) [x] = (swn, 1, none) ∧
      cfClose P swn = (scn, none) ∧
      scn.disk = some DN ∧
      DE.length = 2 * (blockSizeForSize est).toNat ∧
      DN.length = 2 * (blockSizeForSize est).toNat := by
  obtain ⟨rE, cacheE, hwE, hcElen⟩ := cfWrite_single P key est rngE 0
  obtain ⟨rN, cacheN, hwN, hcNlen⟩ := cfWrite_single P key est rngN x
  obtain ⟨h1, h2, h3⟩ := blockSizeForSize_range est
  generalize hBdef : blockSizeForSize est = B at h1 h2 h3 hwE hwN hcElen hcNlen ⊢
  have hp : 0 < (B - 48).toNat := by omega
  have hwae : cfWriteAsEmpty P (newCryptFile key est rngE)
      = (loopStateC key B B [] rngE rE 0 cacheE 1, none) := by
    simp only [cfWriteAsEmpty]
    rw [hwE]
    simp only [loopStateC]
  obtain ⟨encCE, encHE, hcloseE, hCElen, hCEdec, hHElen, hHEdec⟩ :=
    cfClose_loopStateC P key B B [] rngE rE 0 0 0 cacheE 1 h1 h3 hp
      (by simp) hcElen (by simp)
  simp only [Nat.cast_zero] at hcloseE
  obtain ⟨encCN, encHN, hcloseN, hCNlen, hCNdec, hHNlen, hHNdec⟩ :=
    cfClose_loopStateC P key B B [] rngN rN 0 1 1 cacheN 1 h1 h3 (by omega)
      (by simp) hcNlen (by simp)
  simp only [Nat.cast_one] at hcloseN
  have hXlenE : (magic ++ List.replicate 5 0 ++ toBE 4 B.toNat
      ++ List.replicate 12 0 ++ encHE).length = B.toNat := by
    simp only [List.length_append, List.length_replicate, toBE_length, hHElen]
    rw [show magic.length = 11 from rfl]
    omega
  have hXlenN : (magic ++ List.replicate 5 0 ++ toBE 4 B.toNat
      ++ List.replicate 12 0 ++ encHN).length = B.toNat := by
    simp only [List.length_append, List.length_replicate, toBE_length, hHNlen]
    rw [show magic.length = 11 from rfl]
    omega
  have hopenE := cfOpen_container P key est rng2 B encHE
    ((List.range (B.toNat - 88)).map (fun i => rngE (rE + 16 + i) % 256))
    (([] ++ List.replicate (B.toNat + 0 * B.toNat - ([] : List Nat).length) 0
      ++ encCE).drop B.toNat) 0 h1 h2 h3 hHElen hHEdec (by norm_num)
  simp only [Nat.cast_zero, newCryptFile] at hopenE
  have hBOE : BlockOK P key B (magic ++ List.replicate 5 0 ++ toBE 4 B.toNat
      ++ List.replicate 12 0 ++ encHE
      ++ ([] ++ List.replicate (B.toNat + 0 * B.toNat
        - ([] : List Nat).length) 0 ++ encCE).drop B.toNat) 0 cacheE := by
    refine BlockOK_suffix P key B
      ([] ++ List.replicate (B.toNat + 0 * B.toNat
        - ([] : List Nat).length) 0 ++ encCE) _ 0 _
      (List.drop_left' hXlenE).symm ?_ ?_
    · simp only [List.length_append, List.length_replicate, List.length_nil,
        List.length_drop, toBE_length, hCElen, hHElen,
        show magic.length = 11 from rfl]
      omega
    · exact BlockOK_new P key B _ encCE _ 0
        (by simp only [List.length_append, List.length_replicate,
          List.length_nil]; omega)
        hCElen hCEdec
  refine ⟨_, _, _, _, _, _, hwae, hcloseE, rfl, ?_, ?_, hwN, hcloseN, rfl,
    ?_, ?_⟩
  · simp only [closedState, cfSize, newCryptFile, Bool.false_eq_true, if_false,
      not_false_eq_true, if_true, reduceIte]
    rw [hopenE]
    simp only [rdState]
  · intro L
    have hread := cfRead_lazyOpen P
      { newCryptFile key est rng2 with
        disk := some (magic ++ List.replicate 5 0 ++ toBE 4 B.toNat
          ++ List.replicate 12 0 ++ encHE
          ++ ([] ++ List.replicate (B.toNat + 0 * B.toNat
            - ([] : List Nat).length) 0 ++ encCE).drop B.toNat) }
      (rdState key (blockSizeForSize est) B
        (magic ++ List.replicate 5 0 ++ toBE 4 B.toNat
          ++ List.replicate 12 0 ++ encHE
          ++ ([] ++ List.replicate (B.toNat + 0 * B.toNat
            - ([] : List Nat).length) 0 ++ encCE).drop B.toNat) rng2 0 0 0)
      L rfl rfl (by simp only [newCryptFile]; exact hopenE) rfl rfl
    obtain ⟨s', hs'⟩ := cfRead_empty P key (blockSizeForSize est) B _ rng2 0
      cacheE L h1 hBOE hcElen
    refine ⟨s', cacheE.take L, ?_⟩
    rw [hread, hs']
  · simp only [List.length_append, List.length_replicate, List.length_nil,
      List.length_drop, toBE_length, hCElen, hHElen,
      show magic.length = 11 from rfl]
    omega
  · simp only [List.length_append, List.length_replicate, List.length_nil,
      List.length_drop, toBE_length, hCNlen, hHNlen,
      show magic.length = 11 from rfl]
    omega
